import Mathlib

/-!
# Buddhabrot: sampling-and-accumulation engine

A shallow embedding of `src/Buddhabrot.cpp` and the properties of its orbit
tracer, coordinate mapper and normaliser.

Numbers of type `double` are modelled by an arbitrary linearly ordered field `K`
(instantiated at `ℚ` for evaluation and at `ℝ` where a square root is needed).  The
orbit tracer and the candidate filter are taken in exact arithmetic.  In the
coordinate mapper every `double` operation rounds to the nearest `double`
(`roundDouble`), since the pixel index depends on the last bit of the quotient.
Values of type `int` are modelled by `Int`, with the 32-bit range made explicit
wherever a result can leave it.
-/

namespace Buddhabrot

/-! ## Complex arithmetic (`class Complex`, lines 21-41) -/

/-- The source's `class Complex`: a pair of coordinates `_r`, `_i`. -/
structure Complex (K : Type) where
  r : K
  i : K
deriving DecidableEq, Repr

variable {K : Type} [LinearOrderedField K]

namespace Complex

/-- The source's `operator*`. -/
def mul (a other : Complex K) : Complex K :=
  ⟨a.r * other.r - a.i * other.i, a.r * other.i + a.i * other.r⟩

/-- The source's `operator+`. -/
def add (a other : Complex K) : Complex K :=
  ⟨a.r + other.r, a.i + other.i⟩

/-- The source's `sqMagnitude`. -/
def sqMagnitude (a : Complex K) : K := a.r * a.r + a.i * a.i

instance : Mul (Complex K) := ⟨mul⟩
instance : Add (Complex K) := ⟨add⟩

end Complex

/-! ## Orbit tracer (`buddhabrotPoint`, lines 51-68) -/

/-- The local variables of `buddhabrotPoint` that the `while` loop changes. -/
structure TraceState (K : Type) where
  z : Complex K
  toReturn : List (Complex K)
  counter : Nat

/-- The `while` loop of `buddhabrotPoint` (lines 56-62): as long as
`counter < maxIter && z.sqMagnitude() <= 2.0`, replace `z` by `z * z + c`, push it
on `toReturn` and increment `counter`. -/
def traceLoop (c : Complex K) (maxIter : Nat) (s : TraceState K) : TraceState K :=
  if s.counter < maxIter ∧ s.z.sqMagnitude ≤ 2 then
    traceLoop c maxIter ⟨s.z * s.z + c, s.toReturn ++ [s.z * s.z + c], s.counter + 1⟩
  else s
termination_by maxIter - s.counter
decreasing_by simp_wf; omega

/-- The source's `buddhabrotPoint`.  `maxIter` is an `int` in the source; a negative
bound makes `reserve` throw before the loop, so the bound is taken in `Nat`. -/
def buddhabrotPoint (c : Complex K) (maxIter : Nat) : List (Complex K) :=
  let s := traceLoop c maxIter ⟨⟨0, 0⟩, [], 0⟩
  if s.counter = maxIter then [] else s.toReturn

/-- The quadratic map `z ↦ z * z + c` that the loop body applies. -/
def quadStep (c z : Complex K) : Complex K := z * z + c

/-- The `n`-th iterate of the quadratic map started at the seed `(0, 0)`. -/
def orbitPoint (c : Complex K) (n : Nat) : Complex K := (quadStep c)^[n] ⟨0, 0⟩

/-- The iterates `z_1, ..., z_n` of the quadratic map started at `(0, 0)`. -/
def orbitPrefix (c : Complex K) (n : Nat) : List (Complex K) :=
  (List.range n).map (fun j => orbitPoint c (j + 1))

/-! ## Configuration and candidate filter (`main`, lines 71-83 and 114-124) -/

/-- The source's `winSize`. -/
def winSize : Int := 1000

/-- The source's `minimum`, the lower corner `(-2.0, -1.5)` of the region. -/
def minimum : Complex K := ⟨-2, -3 / 2⟩

/-- The source's `maximum`, the upper corner `(1.0, 1.5)` of the region. -/
def maximum : Complex K := ⟨1, 3 / 2⟩

/-- The source's `maxIter`. -/
def maxIter : Nat := 100

/-- The main-cardioid test (lines 115-118): `p` is the square root of
`(c.r - 1/4)^2 + c.i^2` and `x = p - 2 p p + 1/4`; the test is `c.r <= x`.  The
square root function is a parameter. -/
def inMainCardioid (sqrt : K → K) (c : Complex K) : Bool :=
  let p := sqrt ((c.r - 1 / 4) * (c.r - 1 / 4) + c.i * c.i)
  let x := p - 2 * p * p + 1 / 4
  decide (c.r ≤ x)

/-- The test of the second bulb (lines 122-123): `x = (c.r + 1)^2 + c.i^2` and the
test is `x <= 1/16`. -/
def inSecondCardioid (c : Complex K) : Bool :=
  let x := (c.r + 1) * (c.r + 1) + c.i * c.i
  decide (x ≤ 1 / 16)

/-- The candidate filter: a candidate for which either test holds is skipped by
`continue`. -/
def rejectedByFilter (sqrt : K → K) (c : Complex K) : Bool :=
  inMainCardioid sqrt c || inSecondCardioid c

/-! ## Coordinate mapper (`rowFromReal`, `colFromImag`, lines 43-49) -/

/-- Smallest value of the 32-bit `int`. -/
def INT_MIN : Int := -2147483648

/-- Largest value of the 32-bit `int`. -/
def INT_MAX : Int := 2147483647

/-- Rounding toward zero, the rounding of a floating-to-integer conversion. -/
def truncToInt [FloorRing K] (x : K) : Int := if 0 ≤ x then ⌊x⌋ else ⌈x⌉

/-- The conversion `static_cast<int>(x)`: the value truncated toward zero when that
is representable in `int`; otherwise the conversion has no defined result. -/
def castToInt [FloorRing K] (x : K) : Option Int :=
  if INT_MIN ≤ truncToInt x ∧ truncToInt x ≤ INT_MAX then some (truncToInt x) else none

/-- Rounding of a number to the nearest integer, a tie going to the even one. -/
def roundHalfEven [FloorRing K] (m : K) : Int :=
  if m - (⌊m⌋ : K) < 1 / 2 then ⌊m⌋
  else if 1 / 2 < m - (⌊m⌋ : K) then ⌊m⌋ + 1
  else if ⌊m⌋ % 2 = 0 then ⌊m⌋ else ⌊m⌋ + 1

/-- The binary exponent that fixes the spacing of the `double` values around `x`:
`floor (log2 |x|)`, and `-1022` throughout the subnormal range. -/
def doubleExponent [FloorRing K] (x : K) : Int := max (Int.log 2 |x|) (-1022)

/-- The spacing of the `double` values around `x`: a significand of 53 bits. -/
def doubleUlp [FloorRing K] (x : K) : K := (2 : K) ^ (doubleExponent x - 52)

/-- The result of one `double` operation whose exact value is `x`: the multiple of the
spacing nearest to `x`, a tie going to the even significand (the default rounding of
IEEE 754 binary64, gradual underflow included).  A result of magnitude `2^1024` or
more is an overflow to infinity, which is not a number: `none`. -/
def roundDouble [FloorRing K] (x : K) : Option K :=
  if |(roundHalfEven (x / doubleUlp x) : K) * doubleUlp x| < (2 : K) ^ (1024 : Nat) then
    some ((roundHalfEven (x / doubleUlp x) : K) * doubleUlp x)
  else none

/-- The expression `(real - min) * screenWidth / (max - min)` of lines 44 and 48 as the
program computes it: the difference, the product, the divisor and the quotient are
each rounded to `double`; the `int` `screenWidth` converts to `double` exactly.  A
finite dividend over a divisor that overflowed to infinity is zero; a zero divisor or
an infinite dividend gives no finite quotient. -/
def mapperQuotient [FloorRing K] (value min max : K) (screenWidth : Int) : Option K :=
  match roundDouble (value - min) with
  | none => none
  | some d1 =>
    match roundDouble (d1 * (screenWidth : K)) with
    | none => none
    | some d2 =>
      match roundDouble (max - min) with
      | none => some 0
      | some d3 => if d3 = 0 then none else roundDouble (d2 / d3)

/-- The source's `rowFromReal`: the `double` quotient converted by
`static_cast<int>`. -/
def rowFromReal [FloorRing K] (real min max : K) (screenWidth : Int) : Option Int :=
  match mapperQuotient real min max screenWidth with
  | none => none
  | some q => castToInt q

/-- The source's `colFromImag`. -/
def colFromImag [FloorRing K] (imag min max : K) (screenWidth : Int) : Option Int :=
  match mapperQuotient imag min max screenWidth with
  | none => none
  | some q => castToInt q

/-- The index formula of the spec's Coordinate Mapper (section 4.3),
`floor((value - min) * R / (max - min))`, evaluated in exact arithmetic.  It is the
reference the code is compared with, not the code. -/
def specIndex [FloorRing K] (value min max : K) (R : Int) : Int :=
  ⌊(value - min) * (R : K) / (max - min)⌋

/-- The coordinate one pixel unit below `max`, `max - (max - min) / R`, computed in
`double` arithmetic. -/
def onePixelBelowMax [FloorRing K] (min max : K) (R : Int) : Option K :=
  match roundDouble (max - min) with
  | none => none
  | some w =>
    match roundDouble (w / (R : K)) with
    | none => none
    | some u => roundDouble (max - u)

/-- The accumulator's range check (lines 129-130). -/
def inRegion (n minimum maximum : Complex K) : Bool :=
  decide (n.i ≤ maximum.i ∧ n.i ≥ minimum.i ∧ n.r ≤ maximum.r ∧ n.r ≥ minimum.r)

/-! ## Normaliser (lines 141-154) -/

/-- Two's-complement reduction of an integer to the 32-bit `int` range: the value an
`int` expression takes on the usual targets when its exact value does not fit. -/
def wrapInt32 (x : Int) : Int := (x + 2147483648) % 4294967296 - 2147483648

/-- The inner loop of the maximum search (lines 143-146) over one row. -/
def maxPassRow (maxPass : Int) (row : List Int) : Int :=
  row.foldl (fun m n => if n > m then n else m) maxPass

/-- The maximum search (lines 141-147): `maxPass` starts at `0` and is raised by
every larger cell. -/
def findMaxPass (nPass : List (List Int)) : Int :=
  nPass.foldl maxPassRow 0

/-- The expression `(int)(255 * nPass[y][x] / maxPass)` (line 151): an `int`
product, then an `int` division, which truncates and has no result for a zero
divisor. -/
def colorValue (n maxPass : Int) : Option Int :=
  if maxPass = 0 then none else some ((wrapInt32 (255 * n)).tdiv maxPass)

/-- The conversion of an `int` to the `Uint8` channel of `sf::Color`. -/
def toUint8 (v : Int) : Int := v % 256

/-- One row of the image loop (lines 150-153): the gray level of each pixel. -/
def normalizeRow (maxPass : Int) : List Int → Option (List Int)
  | [] => some []
  | n :: rest =>
    match colorValue n maxPass with
    | none => none
    | some v =>
      match normalizeRow maxPass rest with
      | none => none
      | some vs => some (toUint8 v :: vs)

/-- The image loop (lines 149-154) over the rows, for a given `maxPass`. -/
def normalizeRows (maxPass : Int) : List (List Int) → Option (List (List Int))
  | [] => some []
  | row :: rest =>
    match normalizeRow maxPass row with
    | none => none
    | some r =>
      match normalizeRows maxPass rest with
      | none => none
      | some rs => some (r :: rs)

/-- The normaliser (lines 141-154): maximum search followed by the image loop. -/
def normalize (nPass : List (List Int)) : Option (List (List Int)) :=
  normalizeRows (findMaxPass nPass) nPass

/-- The cell `g[y][x]` of a grid or image, when both indices are in range. -/
def cellAt (g : List (List Int)) (y x : Nat) : Option Int :=
  match g[y]? with
  | none => none
  | some row => row[x]?

/-- The gray level the image loop stores for a cell `n` when `maxPass ≠ 0`. -/
def grayLevel (maxPass n : Int) : Int :=
  toUint8 ((wrapInt32 (255 * n)).tdiv maxPass)

/-! ## Candidate filter: the intermediate values -/

/-- The value `p` of the main-cardioid test (lines 115-116). -/
def cardioidP (sqrt : K → K) (c : Complex K) : K :=
  sqrt ((c.r - 1 / 4) * (c.r - 1 / 4) + c.i * c.i)

/-- The value `x = p - (2 * p * p) + 1 / 4.0` of the main-cardioid test (line 117). -/
def cardioidX (sqrt : K → K) (c : Complex K) : K :=
  cardioidP sqrt c - 2 * cardioidP sqrt c * cardioidP sqrt c + 1 / 4

/-- The value `x` of the test of the second bulb (line 122). -/
def secondCardioidX (c : Complex K) : K :=
  (c.r + 1) * (c.r + 1) + c.i * c.i

/-! ## Histogram accumulator (`main`, lines 85-90 and 126-135) -/

/-- The grid after the allocation loop (lines 85-90): `size` rows of `size` cells,
all `0`. -/
def zeroGrid (size : Nat) : List (List Int) :=
  List.replicate size (List.replicate size 0)

/-- The statement `++nPass[row][col]` (line 133).  The access is defined only for
indices inside the allocated rows and cells; the `int` cell is incremented with the
32-bit range made explicit. -/
def incrementCell (nPass : List (List Int)) (row col : Int) : Option (List (List Int)) :=
  if 0 ≤ row ∧ 0 ≤ col then
    match nPass[row.toNat]? with
    | none => none
    | some cells =>
      match cells[col.toNat]? with
      | none => none
      | some v => some (nPass.set row.toNat (cells.set col.toNat (wrapInt32 (v + 1))))
  else none

/-- The body of the accumulation loop (lines 129-134) for one orbit point `n`: a point
that fails the range check is skipped; otherwise its row and column are computed and
the cell is incremented. -/
def accumulatePoint [FloorRing K] (regionMin regionMax : Complex K) (size : Int)
    (nPass : List (List Int)) (n : Complex K) : Option (List (List Int)) :=
  if inRegion n regionMin regionMax = true then
    match rowFromReal n.r regionMin.r regionMax.r size with
    | none => none
    | some row =>
      match colFromImag n.i regionMin.i regionMax.i size with
      | none => none
      | some col => incrementCell nPass row col
  else some nPass

/-- The accumulation loop `for (Complex n : pointPassed)` (lines 128-135). -/
def accumulate [FloorRing K] (regionMin regionMax : Complex K) (size : Int) :
    List (List Int) → List (Complex K) → Option (List (List Int))
  | nPass, [] => some nPass
  | nPass, n :: rest =>
    match accumulatePoint regionMin regionMax size nPass n with
    | none => none
    | some g => accumulate regionMin regionMax size g rest

/-- The sample loop (lines 111-139) over the candidates drawn in a pass, given as a
list: a candidate for which a filter test holds is skipped by `continue`; for the
others the orbit is traced and accumulated. -/
def samplePass [FloorRing K] (sqrt : K → K) (regionMin regionMax : Complex K) (size : Int)
    (bound : Nat) : List (List Int) → List (Complex K) → Option (List (List Int))
  | nPass, [] => some nPass
  | nPass, c :: rest =>
    if rejectedByFilter sqrt c = true then
      samplePass sqrt regionMin regionMax size bound nPass rest
    else
      match accumulate regionMin regionMax size nPass (buddhabrotPoint c bound) with
      | none => none
      | some g => samplePass sqrt regionMin regionMax size bound g rest

/-- The sum of all cells of a grid. -/
def gridSum (g : List (List Int)) : Int := (g.map List.sum).sum

/-- The number of points of an orbit that pass the accumulator's range check. -/
def inRegionCount (regionMin regionMax : Complex K) (orbit : List (Complex K)) : Nat :=
  (orbit.filter (fun n => inRegion n regionMin regionMax)).length

/-- The number of in-region orbit points of all candidates of a pass that pass the
candidate filter. -/
def passCount (sqrt : K → K) (regionMin regionMax : Complex K) (bound : Nat) :
    List (Complex K) → Nat
  | [] => 0
  | c :: rest =>
    (if rejectedByFilter sqrt c = true then 0
      else inRegionCount regionMin regionMax (buddhabrotPoint c bound))
    + passCount sqrt regionMin regionMax bound rest

/-- A grid of `size` rows of `size` cells. -/
def IsSquareGrid (g : List (List Int)) (size : Int) : Prop :=
  (g.length : Int) = size ∧ ∀ row ∈ g, (row.length : Int) = size

/-- Every cell of the grid is an `int` value of at most `top`. -/
def CellsAtMost (g : List (List Int)) (top : Int) : Prop :=
  ∀ row ∈ g, ∀ v ∈ row, INT_MIN ≤ v ∧ v ≤ top

/-- The mapper sends the point `n` to a row and a column below `size`. -/
def MapsBelow [FloorRing K] (regionMin regionMax : Complex K) (size : Int)
    (n : Complex K) : Prop :=
  ∃ row col : Int, rowFromReal n.r regionMin.r regionMax.r size = some row ∧ row < size ∧
    colFromImag n.i regionMin.i regionMax.i size = some col ∧ col < size

/-- The complex number that a `Complex` value over the reals denotes. -/
def toComplexNumber (a : Complex ℝ) : ℂ := ⟨a.r, a.i⟩

/-! ## Basic facts about the complex operations -/

@[simp]
theorem Complex.mul_r (a b : Complex K) : (a * b).r = a.r * b.r - a.i * b.i := rfl

@[simp]
theorem Complex.mul_i (a b : Complex K) : (a * b).i = a.r * b.i + a.i * b.r := rfl

@[simp]
theorem Complex.add_r (a b : Complex K) : (a + b).r = a.r + b.r := rfl

@[simp]
theorem Complex.add_i (a b : Complex K) : (a + b).i = a.i + b.i := rfl

omit [LinearOrderedField K] in
theorem Complex.ext_iff_coords (a b : Complex K) : a = b ↔ a.r = b.r ∧ a.i = b.i := by
  cases a; cases b; simp

theorem quadStep_zero (c : Complex K) : quadStep c ⟨0, 0⟩ = c := by
  rw [Complex.ext_iff_coords]
  simp [quadStep]

theorem orbitPoint_zero (c : Complex K) : orbitPoint c 0 = ⟨0, 0⟩ := rfl

theorem orbitPoint_succ (c : Complex K) (n : Nat) :
    orbitPoint c (n + 1) = quadStep c (orbitPoint c n) := by
  simp [orbitPoint, Function.iterate_succ_apply']

theorem orbitPoint_one (c : Complex K) : orbitPoint c 1 = c := by
  rw [orbitPoint_succ, orbitPoint_zero, quadStep_zero]

theorem orbitPrefix_length (c : Complex K) (n : Nat) : (orbitPrefix c n).length = n := by
  simp [orbitPrefix]

theorem orbitPrefix_succ (c : Complex K) (n : Nat) :
    orbitPrefix c (n + 1) = orbitPrefix c n ++ [orbitPoint c (n + 1)] := by
  simp [orbitPrefix, List.range_succ]

/-! ## The tracing loop -/

theorem traceLoop_continue (c : Complex K) (maxIter : Nat) (s : TraceState K)
    (hc : s.counter < maxIter) (hz : s.z.sqMagnitude ≤ 2) :
    traceLoop c maxIter s
      = traceLoop c maxIter ⟨s.z * s.z + c, s.toReturn ++ [s.z * s.z + c], s.counter + 1⟩ := by
  rw [traceLoop, if_pos ⟨hc, hz⟩]

theorem traceLoop_exit (c : Complex K) (maxIter : Nat) (s : TraceState K)
    (h : ¬ (s.counter < maxIter ∧ s.z.sqMagnitude ≤ 2)) :
    traceLoop c maxIter s = s := by
  rw [traceLoop, if_neg h]

/-- What the loop computes from an arbitrary state: it performs some number `m` of
steps, all from points of squared magnitude at most `2`, and stops either at the
bound or at a point of squared magnitude above `2`. -/
theorem traceLoop_spec (c : Complex K) (maxIter : Nat) :
    ∀ (d : Nat) (s : TraceState K), maxIter - s.counter = d → s.counter ≤ maxIter →
      ∃ m : Nat,
        (traceLoop c maxIter s).counter = s.counter + m ∧
        s.counter + m ≤ maxIter ∧
        (traceLoop c maxIter s).z = (quadStep c)^[m] s.z ∧
        (traceLoop c maxIter s).toReturn
          = s.toReturn ++ (List.range m).map (fun j => (quadStep c)^[j + 1] s.z) ∧
        (∀ j, j < m → ((quadStep c)^[j] s.z).sqMagnitude ≤ 2) ∧
        (s.counter + m < maxIter → 2 < ((quadStep c)^[m] s.z).sqMagnitude) := by
  intro d
  induction d with
  | zero =>
    intro s hd hle
    have hstop : ¬ (s.counter < maxIter ∧ s.z.sqMagnitude ≤ 2) := by
      intro h; omega
    refine ⟨0, ?_, ?_, ?_, ?_, ?_, ?_⟩
    · rw [traceLoop_exit c maxIter s hstop]; rfl
    · simpa using hle
    · rw [traceLoop_exit c maxIter s hstop]; rfl
    · rw [traceLoop_exit c maxIter s hstop]; simp
    · intro j hj; omega
    · intro h; omega
  | succ d ih =>
    intro s hd hle
    by_cases hz : s.z.sqMagnitude ≤ 2
    · have hc : s.counter < maxIter := by omega
      obtain ⟨m, h1, h2, h3, h4, h5, h6⟩ :=
        ih ⟨s.z * s.z + c, s.toReturn ++ [s.z * s.z + c], s.counter + 1⟩
          (by simp only; omega) (by simp only; omega)
      simp only at h1 h2 h3 h4 h5 h6
      rw [← traceLoop_continue c maxIter s hc hz] at h1 h3 h4
      refine ⟨m + 1, ?_, ?_, ?_, ?_, ?_, ?_⟩
      · rw [h1]; omega
      · omega
      · rw [h3]; rfl
      · rw [h4, List.range_succ_eq_map, List.map_cons, List.map_map, List.append_assoc]
        rfl
      · intro j hj
        cases j with
        | zero => simpa using hz
        | succ j => exact h5 j (by omega)
      · intro h
        exact h6 (by omega)
    · have hstop : ¬ (s.counter < maxIter ∧ s.z.sqMagnitude ≤ 2) := fun h => hz h.2
      refine ⟨0, ?_, ?_, ?_, ?_, ?_, ?_⟩
      · rw [traceLoop_exit c maxIter s hstop]; rfl
      · simpa using hle
      · rw [traceLoop_exit c maxIter s hstop]; rfl
      · rw [traceLoop_exit c maxIter s hstop]; simp
      · intro j hj; omega
      · intro _
        simpa using lt_of_not_le hz

/-- The loop run from the initial state of `buddhabrotPoint`: it stops after some
`m ≤ maxIter` steps with the iterates `z_1 .. z_m` recorded. -/
theorem traceLoop_init (c : Complex K) (maxIter : Nat) :
    ∃ m : Nat, m ≤ maxIter ∧
      (traceLoop c maxIter ⟨⟨0, 0⟩, [], 0⟩).counter = m ∧
      (traceLoop c maxIter ⟨⟨0, 0⟩, [], 0⟩).z = orbitPoint c m ∧
      (traceLoop c maxIter ⟨⟨0, 0⟩, [], 0⟩).toReturn = orbitPrefix c m ∧
      (∀ j, j < m → (orbitPoint c j).sqMagnitude ≤ 2) ∧
      (m < maxIter → 2 < (orbitPoint c m).sqMagnitude) := by
  obtain ⟨m, h1, h2, h3, h4, h5, h6⟩ :=
    traceLoop_spec c maxIter maxIter ⟨⟨0, 0⟩, [], 0⟩ rfl (Nat.zero_le _)
  simp only [Nat.zero_add, List.nil_append] at h1 h2 h3 h4 h5 h6
  exact ⟨m, h2, h1, h3, h4, h5, h6⟩

/-- The result of `buddhabrotPoint` in terms of the number of steps of the loop. -/
theorem buddhabrotPoint_cases (c : Complex K) (maxIter : Nat) :
    ∃ m : Nat, m ≤ maxIter ∧
      (traceLoop c maxIter ⟨⟨0, 0⟩, [], 0⟩).counter = m ∧
      (∀ j, j < m → (orbitPoint c j).sqMagnitude ≤ 2) ∧
      (m < maxIter → 2 < (orbitPoint c m).sqMagnitude) ∧
      (m < maxIter → buddhabrotPoint c maxIter = orbitPrefix c m) ∧
      (m = maxIter → buddhabrotPoint c maxIter = []) := by
  obtain ⟨m, hle, hcnt, _, hret, hsmall, hbig⟩ := traceLoop_init c maxIter
  refine ⟨m, hle, hcnt, hsmall, hbig, ?_, ?_⟩
  · intro hlt
    have hne : ¬ ((traceLoop c maxIter ⟨⟨0, 0⟩, [], 0⟩).counter = maxIter) := by
      rw [hcnt]; omega
    simp only [buddhabrotPoint, if_neg hne, hret]
  · intro heq
    have hc : (traceLoop c maxIter ⟨⟨0, 0⟩, [], 0⟩).counter = maxIter := by
      rw [hcnt]; exact heq
    simp only [buddhabrotPoint, if_pos hc]

/-- If the first iterate of squared magnitude above `2` is `z_k` and `k` is below the
bound, the tracer returns `z_1 .. z_k`. -/
theorem buddhabrotPoint_of_first_escape (c : Complex K) (maxIter k : Nat)
    (hk : k < maxIter) (hfirst : ∀ j, j < k → (orbitPoint c j).sqMagnitude ≤ 2)
    (hesc : 2 < (orbitPoint c k).sqMagnitude) :
    buddhabrotPoint c maxIter = orbitPrefix c k := by
  obtain ⟨m, hle, _, hsmall, hbig, hret, _⟩ := buddhabrotPoint_cases c maxIter
  have hmk : m = k := by
    rcases Nat.lt_trichotomy m k with h | h | h
    · exact absurd (hfirst m h) (not_le_of_lt (hbig (by omega)))
    · exact h
    · exact absurd (hsmall k h) (not_le_of_lt hesc)
  subst hmk
  exact hret hk

/-- If no iterate before the `maxIter`-th has squared magnitude above `2`, the loop
runs `maxIter` times and the tracer returns the empty sequence. -/
theorem buddhabrotPoint_of_no_escape (c : Complex K) (maxIter : Nat)
    (hsmall : ∀ j, j < maxIter → (orbitPoint c j).sqMagnitude ≤ 2) :
    buddhabrotPoint c maxIter = [] := by
  obtain ⟨m, hle, _, _, hbig, _, hret⟩ := buddhabrotPoint_cases c maxIter
  rcases Nat.lt_or_ge m maxIter with h | h
  · exact absurd (hsmall m h) (not_le_of_lt (hbig h))
  · exact hret (by omega)

theorem orbitPrefix_getElem? (c : Complex K) (n i : Nat) (hi : i < n) :
    (orbitPrefix c n)[i]? = some (orbitPoint c (i + 1)) := by
  simp [orbitPrefix, List.getElem?_map, List.getElem?_range hi]

theorem mem_orbitPrefix (c : Complex K) (n : Nat) (z : Complex K)
    (hz : z ∈ orbitPrefix c n) : ∃ j, j < n ∧ z = orbitPoint c (j + 1) := by
  simp only [orbitPrefix, List.mem_map, List.mem_range] at hz
  obtain ⟨j, hj, rfl⟩ := hz
  exact ⟨j, hj, rfl⟩

theorem sqMagnitude_two_two : (⟨2, 2⟩ : Complex ℚ).sqMagnitude = 8 := by
  norm_num [Complex.sqMagnitude]

theorem sqMagnitude_seed : (⟨0, 0⟩ : Complex K).sqMagnitude = 0 := by
  simp [Complex.sqMagnitude]

/-- The candidate `(2, 2)` escapes at the first iterate. -/
theorem first_escape_two_two :
    (∀ j, j < 1 → (orbitPoint (⟨2, 2⟩ : Complex ℚ) j).sqMagnitude ≤ 2) ∧
    2 < (orbitPoint (⟨2, 2⟩ : Complex ℚ) 1).sqMagnitude := by
  constructor
  · intro j hj
    have hj0 : j = 0 := by omega
    subst hj0
    rw [orbitPoint_zero, sqMagnitude_seed]
    norm_num
  · rw [orbitPoint_one, sqMagnitude_two_two]
    norm_num

/-- Evaluation: `buddhabrotPoint((2,2), 5)` is the one-point sequence `[(2,2)]`. -/
theorem buddhabrotPoint_two_two_five :
    buddhabrotPoint (⟨2, 2⟩ : Complex ℚ) 5 = [⟨2, 2⟩] := by
  rw [buddhabrotPoint_of_first_escape _ 5 1 (by decide) first_escape_two_two.1
    first_escape_two_two.2]
  simp [orbitPrefix, List.range_succ, orbitPoint_one]

/-- Evaluation: `buddhabrotPoint((2,2), 1)` is empty. -/
theorem buddhabrotPoint_two_two_one :
    buddhabrotPoint (⟨2, 2⟩ : Complex ℚ) 1 = [] :=
  buddhabrotPoint_of_no_escape _ 1 first_escape_two_two.1

/-- The orbit of the candidate `(5/8, -1/8)`: its first three iterates. -/
theorem orbitPoint_example (K : Type) [LinearOrderedField K] :
    orbitPoint (⟨5 / 8, -1 / 8⟩ : Complex K) 1 = ⟨5 / 8, -1 / 8⟩ ∧
    orbitPoint (⟨5 / 8, -1 / 8⟩ : Complex K) 2 = ⟨1, -9 / 32⟩ ∧
    orbitPoint (⟨5 / 8, -1 / 8⟩ : Complex K) 3 = ⟨1583 / 1024, -11 / 16⟩ := by
  have h1 : orbitPoint (⟨5 / 8, -1 / 8⟩ : Complex K) 1 = ⟨5 / 8, -1 / 8⟩ := orbitPoint_one _
  have h2 : orbitPoint (⟨5 / 8, -1 / 8⟩ : Complex K) 2 = ⟨1, -9 / 32⟩ := by
    rw [orbitPoint_succ, h1, quadStep, Complex.ext_iff_coords]
    constructor <;> norm_num
  have h3 : orbitPoint (⟨5 / 8, -1 / 8⟩ : Complex K) 3 = ⟨1583 / 1024, -11 / 16⟩ := by
    rw [orbitPoint_succ, h2, quadStep, Complex.ext_iff_coords]
    constructor <;> norm_num
  exact ⟨h1, h2, h3⟩

/-- The candidate `(5/8, -1/8)` escapes at the third iterate. -/
theorem first_escape_example (K : Type) [LinearOrderedField K] :
    (∀ j, j < 3 → (orbitPoint (⟨5 / 8, -1 / 8⟩ : Complex K) j).sqMagnitude ≤ 2) ∧
    2 < (orbitPoint (⟨5 / 8, -1 / 8⟩ : Complex K) 3).sqMagnitude := by
  obtain ⟨h1, h2, h3⟩ := orbitPoint_example K
  constructor
  · intro j hj
    interval_cases j
    · rw [orbitPoint_zero, sqMagnitude_seed]; norm_num
    · rw [h1]; norm_num [Complex.sqMagnitude]
    · rw [h2]; norm_num [Complex.sqMagnitude]
  · rw [h3]; norm_num [Complex.sqMagnitude]

/-- Evaluation: the orbit returned for the candidate `(5/8, -1/8)` with the program's
bound `maxIter = 100`. -/
theorem buddhabrotPoint_example (K : Type) [LinearOrderedField K] :
    buddhabrotPoint (⟨5 / 8, -1 / 8⟩ : Complex K) maxIter
      = [⟨5 / 8, -1 / 8⟩, ⟨1, -9 / 32⟩, ⟨1583 / 1024, -11 / 16⟩] := by
  obtain ⟨h1, h2, h3⟩ := orbitPoint_example K
  rw [buddhabrotPoint_of_first_escape _ maxIter 3 (by decide) (first_escape_example K).1
    (first_escape_example K).2]
  simp [orbitPrefix, List.range_succ, h1, h2, h3]

/-- The candidate `(5/8, -1/8)` passes both tests of the candidate filter. -/
theorem rejectedByFilter_example :
    rejectedByFilter Real.sqrt (⟨5 / 8, -1 / 8⟩ : Complex ℝ) = false := by
  have hp : Real.sqrt ((5 / 8 - 1 / 4) * (5 / 8 - 1 / 4) + -1 / 8 * (-1 / 8)) < 11 / 16 := by
    rw [Real.sqrt_lt' (by norm_num)]
    norm_num
  have hpp : Real.sqrt ((5 / 8 - 1 / 4) * (5 / 8 - 1 / 4) + -1 / 8 * (-1 / 8))
      * Real.sqrt ((5 / 8 - 1 / 4) * (5 / 8 - 1 / 4) + -1 / 8 * (-1 / 8))
      = (5 / 8 - 1 / 4) * (5 / 8 - 1 / 4) + -1 / 8 * (-1 / 8) :=
    Real.mul_self_sqrt (by norm_num)
  simp only [rejectedByFilter, inMainCardioid, inSecondCardioid, Bool.or_eq_false_iff,
    decide_eq_false_iff_not, not_le]
  constructor
  · nlinarith [hp, hpp]
  · norm_num

/-! ## Rounding of `double` operations -/

theorem doubleUlp_pos [FloorRing K] (x : K) : 0 < doubleUlp x :=
  zpow_pos (by norm_num) _

theorem roundHalfEven_nonneg [FloorRing K] (m : K) (hm : 0 ≤ m) : 0 ≤ roundHalfEven m := by
  have hf : 0 ≤ ⌊m⌋ := Int.floor_nonneg.mpr hm
  unfold roundHalfEven
  split_ifs <;> omega

theorem roundHalfEven_nonpos [FloorRing K] (m : K) (hm : m ≤ 0) : roundHalfEven m ≤ 0 := by
  have hf : ⌊m⌋ ≤ 0 := by
    have := Int.floor_le_floor hm
    simpa using this
  rcases eq_or_lt_of_le hf with h0 | hneg
  · have hm0 : m = 0 := by
      have h1 : (⌊m⌋ : K) ≤ m := Int.floor_le m
      rw [h0] at h1
      exact le_antisymm hm (by simpa using h1)
    subst hm0
    simp [roundHalfEven]
  · unfold roundHalfEven
    split_ifs <;> omega

theorem roundHalfEven_of_near [FloorRing K] (m : K) (n : Int)
    (h1 : (n : K) - 1 / 2 < m) (h2 : m < (n : K) + 1 / 2) : roundHalfEven m = n := by
  rcases le_or_lt (n : K) m with hge | hlt
  · have hf : ⌊m⌋ = n := by
      rw [Int.floor_eq_iff]
      exact ⟨hge, by linarith⟩
    unfold roundHalfEven
    rw [hf, if_pos (by linarith)]
  · have hf : ⌊m⌋ = n - 1 := by
      rw [Int.floor_eq_iff]
      push_cast
      exact ⟨by linarith, by linarith⟩
    unfold roundHalfEven
    rw [hf]
    push_cast
    rw [if_neg (by linarith), if_pos (by linarith)]
    omega

theorem roundHalfEven_intCast [FloorRing K] (n : Int) : roundHalfEven (n : K) = n :=
  roundHalfEven_of_near _ n (by linarith) (by linarith)

/-- A tie between an even integer `n` and `n + 1` goes to `n`. -/
theorem roundHalfEven_of_tie_even [FloorRing K] (m : K) (n : Int)
    (hm : m = (n : K) + 1 / 2) (heven : n % 2 = 0) : roundHalfEven m = n := by
  have hf : ⌊m⌋ = n := by
    rw [Int.floor_eq_iff]
    exact ⟨by linarith, by linarith⟩
  unfold roundHalfEven
  rw [hf, if_neg (by linarith), if_neg (by linarith), if_pos heven]

theorem doubleExponent_eq [FloorRing K] (x : K) (e : Int) (he : -1022 ≤ e)
    (hlo : (2 : K) ^ e ≤ |x|) (hhi : |x| < (2 : K) ^ (e + 1)) : doubleExponent x = e := by
  have hpos : 0 < |x| := lt_of_lt_of_le (zpow_pos (by norm_num) _) hlo
  have h1 : e ≤ Int.log 2 |x| := by
    rw [← Int.zpow_le_iff_le_log (by norm_num) hpos]
    simpa using hlo
  have h2 : Int.log 2 |x| < e + 1 := by
    rw [← Int.lt_zpow_iff_log_lt (by norm_num) hpos]
    simpa using hhi
  unfold doubleExponent
  omega

theorem roundDouble_zero [FloorRing K] : roundDouble (0 : K) = some 0 := by
  simp [roundDouble, roundHalfEven]

/-- Evaluation of the rounding of a normal number. -/
theorem roundDouble_of_near [FloorRing K] (x : K) (e n : Int) (he : -1022 ≤ e)
    (hlo : (2 : K) ^ e ≤ |x|) (hhi : |x| < (2 : K) ^ (e + 1))
    (h1 : (n : K) - 1 / 2 < x / (2 : K) ^ (e - 52))
    (h2 : x / (2 : K) ^ (e - 52) < (n : K) + 1 / 2)
    (hfin : |(n : K) * (2 : K) ^ (e - 52)| < (2 : K) ^ (1024 : Nat)) :
    roundDouble x = some ((n : K) * (2 : K) ^ (e - 52)) := by
  have hu : doubleUlp x = (2 : K) ^ (e - 52) := by
    rw [doubleUlp, doubleExponent_eq x e he hlo hhi]
  rw [roundDouble, hu, roundHalfEven_of_near _ n h1 h2, if_pos hfin]

theorem roundDouble_of_exact [FloorRing K] (x : K) (e n : Int) (he : -1022 ≤ e)
    (hlo : (2 : K) ^ e ≤ |x|) (hhi : |x| < (2 : K) ^ (e + 1))
    (hn : x / (2 : K) ^ (e - 52) = (n : K))
    (hfin : |x| < (2 : K) ^ (1024 : Nat)) :
    roundDouble x = some x := by
  have hp : (0 : K) < (2 : K) ^ (e - 52) := zpow_pos (by norm_num) _
  have hx : (n : K) * (2 : K) ^ (e - 52) = x := by
    rw [← hn, div_mul_cancel₀ _ (ne_of_gt hp)]
  have h := roundDouble_of_near x e n he hlo hhi (by rw [hn]; linarith) (by rw [hn]; linarith)
    (by rw [hx]; exact hfin)
  rw [h, hx]

theorem roundDouble_nonneg [FloorRing K] (x y : K) (hx : 0 ≤ x) (h : roundDouble x = some y) :
    0 ≤ y := by
  have hr : (0 : K) ≤ (roundHalfEven (x / doubleUlp x) : K) := by
    exact_mod_cast roundHalfEven_nonneg _ (div_nonneg hx (le_of_lt (doubleUlp_pos x)))
  unfold roundDouble at h
  split at h
  · rw [← Option.some.inj h]
    exact mul_nonneg hr (le_of_lt (doubleUlp_pos x))
  · exact absurd h (by simp)

theorem roundDouble_nonpos [FloorRing K] (x y : K) (hx : x ≤ 0) (h : roundDouble x = some y) :
    y ≤ 0 := by
  have hr : (roundHalfEven (x / doubleUlp x) : K) ≤ 0 := by
    exact_mod_cast roundHalfEven_nonpos _
      (div_nonpos_of_nonpos_of_nonneg hx (le_of_lt (doubleUlp_pos x)))
  unfold roundDouble at h
  split at h
  · rw [← Option.some.inj h]
    exact mul_nonpos_of_nonpos_of_nonneg hr (le_of_lt (doubleUlp_pos x))
  · exact absurd h (by simp)

/-! ## The coordinate mapper -/

theorem truncToInt_of_nonneg [FloorRing K] (x : K) (hx : 0 ≤ x) : truncToInt x = ⌊x⌋ := by
  simp [truncToInt, hx]

theorem truncToInt_of_neg [FloorRing K] (x : K) (hx : x < 0) : truncToInt x = ⌈x⌉ := by
  simp [truncToInt, not_le_of_lt hx]

theorem truncToInt_of_nonpos [FloorRing K] (x : K) (hx : x ≤ 0) : truncToInt x = ⌈x⌉ := by
  rcases eq_or_lt_of_le hx with h | h
  · subst h
    simp [truncToInt]
  · exact truncToInt_of_neg x h

theorem truncToInt_intCast [FloorRing K] (n : Int) : truncToInt (n : K) = n := by
  unfold truncToInt
  split <;> simp

theorem castToInt_of_fits [FloorRing K] (x : K)
    (h : INT_MIN ≤ truncToInt x ∧ truncToInt x ≤ INT_MAX) :
    castToInt x = some (truncToInt x) := by
  simp only [castToInt, if_pos h]

theorem castToInt_intCast [FloorRing K] (n : Int) (h : INT_MIN ≤ n ∧ n ≤ INT_MAX) :
    castToInt (n : K) = some n := by
  rw [castToInt_of_fits _ (by rw [truncToInt_intCast]; exact h), truncToInt_intCast]

theorem castToInt_eq_some [FloorRing K] (x : K) (idx : Int) (h : castToInt x = some idx) :
    idx = truncToInt x := by
  unfold castToInt at h
  split at h
  · exact (Option.some.inj h).symm
  · exact absurd h (by simp)

theorem colFromImag_eq_rowFromReal [FloorRing K] (value lo hi : K) (R : Int) :
    colFromImag value lo hi R = rowFromReal value lo hi R := rfl

/-- The `double` quotient from the four rounded operations of line 44. -/
theorem mapperQuotient_of_steps [FloorRing K] (value lo hi : K) (R : Int) (d1 d2 d3 q : K)
    (h1 : roundDouble (value - lo) = some d1)
    (h2 : roundDouble (d1 * (R : K)) = some d2)
    (h3 : roundDouble (hi - lo) = some d3) (hd3 : d3 ≠ 0)
    (h4 : roundDouble (d2 / d3) = some q) :
    mapperQuotient value lo hi R = some q := by
  simp only [mapperQuotient, h1, h2, h3, if_neg hd3, h4]

/-- A defined `double` quotient comes from a defined difference and product, and either
an infinite divisor, with quotient zero, or a non-zero divisor and a defined
division. -/
theorem mapperQuotient_steps [FloorRing K] (value lo hi : K) (R : Int) (q : K)
    (h : mapperQuotient value lo hi R = some q) :
    ∃ d1 d2 : K, roundDouble (value - lo) = some d1 ∧
      roundDouble (d1 * (R : K)) = some d2 ∧
      ((roundDouble (hi - lo) = none ∧ q = 0) ∨
        ∃ d3 : K, roundDouble (hi - lo) = some d3 ∧ d3 ≠ 0 ∧
          roundDouble (d2 / d3) = some q) := by
  unfold mapperQuotient at h
  cases h1 : roundDouble (value - lo) with
  | none => rw [h1] at h; exact absurd h (by simp)
  | some d1 =>
    rw [h1] at h
    simp only at h
    cases h2 : roundDouble (d1 * (R : K)) with
    | none => rw [h2] at h; exact absurd h (by simp)
    | some d2 =>
      rw [h2] at h
      simp only at h
      cases h3 : roundDouble (hi - lo) with
      | none =>
        rw [h3] at h
        exact ⟨d1, d2, rfl, h2, Or.inl ⟨rfl, (Option.some.inj h).symm⟩⟩
      | some d3 =>
        rw [h3] at h
        simp only at h
        by_cases hd3 : d3 = 0
        · rw [if_pos hd3] at h; exact absurd h (by simp)
        · rw [if_neg hd3] at h
          exact ⟨d1, d2, rfl, h2, Or.inr ⟨d3, rfl, hd3, h⟩⟩

/-- The sign of the `double` quotient: rounding keeps the sign of every operation. -/
theorem mapperQuotient_sign [FloorRing K] (value lo hi : K) (R : Int) (q : K)
    (hlt : lo < hi) (hR : 0 < R) (h : mapperQuotient value lo hi R = some q) :
    (lo ≤ value → 0 ≤ q) ∧ (value ≤ lo → q ≤ 0) := by
  obtain ⟨d1, d2, h1, h2, hcase⟩ := mapperQuotient_steps value lo hi R q h
  rcases hcase with ⟨_, hq0⟩ | ⟨d3, h3, hd3, h4⟩
  · rw [hq0]
    exact ⟨fun _ => le_refl 0, fun _ => le_refl 0⟩
  · have hR0 : (0 : K) ≤ (R : K) := by exact_mod_cast le_of_lt hR
    have hd3pos : 0 < d3 :=
      lt_of_le_of_ne (roundDouble_nonneg _ _ (le_of_lt (sub_pos.mpr hlt)) h3) (Ne.symm hd3)
    constructor
    · intro hge
      have hd1 : 0 ≤ d1 := roundDouble_nonneg _ _ (sub_nonneg.mpr hge) h1
      have hd2 : 0 ≤ d2 := roundDouble_nonneg _ _ (mul_nonneg hd1 hR0) h2
      exact roundDouble_nonneg _ _ (div_nonneg hd2 (le_of_lt hd3pos)) h4
    · intro hle
      have hd1 : d1 ≤ 0 := roundDouble_nonpos _ _ (sub_nonpos.mpr hle) h1
      have hd2 : d2 ≤ 0 := roundDouble_nonpos _ _ (mul_nonpos_of_nonpos_of_nonneg hd1 hR0) h2
      exact roundDouble_nonpos _ _ (div_nonpos_of_nonpos_of_nonneg hd2 (le_of_lt hd3pos)) h4

theorem roundHalfEven_le_of_le [FloorRing K] (m : K) (N : Int) (h : m ≤ (N : K)) :
    roundHalfEven m ≤ N := by
  have hf : ⌊m⌋ ≤ N := by
    have := Int.floor_le_floor h
    rwa [Int.floor_intCast] at this
  rcases eq_or_lt_of_le hf with heq | hlt
  · have hm : m = (N : K) := by
      have h1 : (⌊m⌋ : K) ≤ m := Int.floor_le m
      rw [heq] at h1
      exact le_antisymm h h1
    rw [hm, roundHalfEven_intCast]
  · unfold roundHalfEven
    split_ifs <;> omega

theorem roundHalfEven_ge_of_ge [FloorRing K] (m : K) (N : Int) (h : (N : K) ≤ m) :
    N ≤ roundHalfEven m := by
  have hf : N ≤ ⌊m⌋ := Int.le_floor.mpr h
  unfold roundHalfEven
  split_ifs <;> omega

/-- The exponent of a non-zero number of magnitude at most `2^k`. -/
theorem doubleExponent_le [FloorRing K] (x : K) (k : Int) (hk : -1022 ≤ k) (hx0 : x ≠ 0)
    (hx : |x| ≤ (2 : K) ^ k) : doubleExponent x ≤ k := by
  have hpos : 0 < |x| := abs_pos.mpr hx0
  have hlt : |x| < (2 : K) ^ (k + 1) :=
    lt_of_le_of_lt hx (zpow_lt_zpow_right₀ (by norm_num) (by omega))
  have h2 : Int.log 2 |x| < k + 1 := by
    rw [← Int.lt_zpow_iff_log_lt (by norm_num) hpos]
    simpa using hlt
  unfold doubleExponent
  omega

/-- Rounding never crosses a power of two: a number of magnitude at most `2^k` has a
defined rounding of magnitude at most `2^k`. -/
theorem roundDouble_le_zpow [FloorRing K] (x : K) (k : Int) (hk : -1022 ≤ k) (hk2 : k ≤ 1023)
    (hx : |x| ≤ (2 : K) ^ k) : ∃ y, roundDouble x = some y ∧ |y| ≤ (2 : K) ^ k := by
  have h1024 : (2 : K) ^ k < (2 : K) ^ (1024 : Nat) := by
    rw [← zpow_natCast]
    exact zpow_lt_zpow_right₀ (by norm_num) (by omega)
  by_cases hx0 : x = 0
  · subst hx0
    exact ⟨0, roundDouble_zero, by rw [abs_zero]; exact le_of_lt (zpow_pos (by norm_num) _)⟩
  · have he := doubleExponent_le x k hk hx0 hx
    have hu : 0 < doubleUlp x := doubleUlp_pos x
    obtain ⟨j, hj⟩ : ∃ j : Nat, (j : Int) = k - doubleExponent x + 52 :=
      ⟨(k - doubleExponent x + 52).toNat, Int.toNat_of_nonneg (by omega)⟩
    have hN : (((2 : Int) ^ j : Int) : K) * doubleUlp x = (2 : K) ^ k := by
      rw [doubleUlp]
      push_cast
      rw [← zpow_natCast, ← zpow_add₀ (by norm_num), hj]
      congr 1
      omega
    have hm1 : x / doubleUlp x ≤ (((2 : Int) ^ j : Int) : K) := by
      rw [div_le_iff₀ hu, hN]
      exact le_trans (le_abs_self x) hx
    have hm2 : ((-((2 : Int) ^ j) : Int) : K) ≤ x / doubleUlp x := by
      rw [le_div_iff₀ hu]
      push_cast
      rw [neg_mul]
      push_cast at hN
      rw [hN]
      exact le_trans (neg_le_neg hx) (neg_abs_le x)
    have hr1 := roundHalfEven_le_of_le _ _ hm1
    have hr2 := roundHalfEven_ge_of_ge _ _ hm2
    have hy : |(roundHalfEven (x / doubleUlp x) : K) * doubleUlp x| ≤ (2 : K) ^ k := by
      rw [abs_le, ← hN]
      constructor
      · rw [← neg_mul]
        exact mul_le_mul_of_nonneg_right (by exact_mod_cast hr2) (le_of_lt hu)
      · exact mul_le_mul_of_nonneg_right (by exact_mod_cast hr1) (le_of_lt hu)
    refine ⟨_, ?_, hy⟩
    rw [roundDouble, if_pos (lt_of_le_of_lt hy h1024)]

/-- A number of at least `2^k`, in the normal range, has a rounding of at least
`2^k`. -/
theorem roundDouble_ge_zpow [FloorRing K] (x y : K) (k : Int) (hk : -1022 ≤ k)
    (hx : (2 : K) ^ k ≤ x) (hy : roundDouble x = some y) : (2 : K) ^ k ≤ y := by
  have hpos : 0 < x := lt_of_lt_of_le (zpow_pos (by norm_num) _) hx
  have habs : |x| = x := abs_of_pos hpos
  have hlog : k ≤ Int.log 2 |x| := by
    rw [← Int.zpow_le_iff_le_log (by norm_num) (by rw [habs]; exact hpos)]
    simpa [habs] using hx
  have he : doubleExponent x = Int.log 2 |x| := by
    unfold doubleExponent
    omega
  have hu : 0 < doubleUlp x := doubleUlp_pos x
  have hle : (2 : K) ^ (Int.log 2 |x|) ≤ x := by
    have := Int.zpow_log_le_self (b := 2) (r := |x|) (by norm_num) (by rw [habs]; exact hpos)
    simpa [habs] using this
  have hN : (((2 : Int) ^ (52 : Nat) : Int) : K) * doubleUlp x = (2 : K) ^ (Int.log 2 |x|) := by
    have h52 : (((2 : Int) ^ (52 : Nat) : Int) : K) = (2 : K) ^ (52 : Int) := by norm_num
    rw [doubleUlp, he, h52, ← zpow_add₀ (by norm_num)]
    congr 1
    omega
  have hm : (((2 : Int) ^ (52 : Nat) : Int) : K) ≤ x / doubleUlp x := by
    rw [le_div_iff₀ hu, hN]
    exact hle
  have hr := roundHalfEven_ge_of_ge _ _ hm
  unfold roundDouble at hy
  split at hy
  · rw [← Option.some.inj hy]
    calc (2 : K) ^ k ≤ (2 : K) ^ (Int.log 2 |x|) := zpow_le_zpow_right₀ (by norm_num) hlog
      _ = (((2 : Int) ^ (52 : Nat) : Int) : K) * doubleUlp x := hN.symm
      _ ≤ (roundHalfEven (x / doubleUlp x) : K) * doubleUlp x :=
          mul_le_mul_of_nonneg_right (by exact_mod_cast hr) (le_of_lt hu)
  · exact absurd hy (by simp)

/-- For moderate magnitudes the four operations of line 44 stay finite and the divisor
is not zero: the `double` quotient is defined. -/
theorem mapperQuotient_defined [FloorRing K] (value lo hi : K) (R : Int) (hR : 0 < R)
    (hv : |value - lo| ≤ (2 : K) ^ (960 : Int)) (hw1 : (2 : K) ^ (-32 : Int) ≤ hi - lo)
    (hw2 : hi - lo ≤ (2 : K) ^ (1023 : Int)) (hRmax : R ≤ INT_MAX) :
    ∃ q, mapperQuotient value lo hi R = some q := by
  obtain ⟨d1, h1, hd1⟩ := roundDouble_le_zpow (value - lo) 960 (by norm_num) (by norm_num) hv
  have hRK : |(R : K)| ≤ (2 : K) ^ (31 : Int) := by
    rw [abs_of_nonneg (by exact_mod_cast le_of_lt hR)]
    have : R ≤ 2 ^ 31 := by simp only [INT_MAX] at hRmax; omega
    have h2 : ((R : Int) : K) ≤ (((2 : Int) ^ 31 : Int) : K) := by exact_mod_cast this
    calc (R : K) ≤ (((2 : Int) ^ 31 : Int) : K) := h2
      _ = (2 : K) ^ (31 : Int) := by norm_num
  have hprod : |d1 * (R : K)| ≤ (2 : K) ^ (991 : Int) := by
    rw [abs_mul]
    calc |d1| * |(R : K)| ≤ (2 : K) ^ (960 : Int) * (2 : K) ^ (31 : Int) :=
          mul_le_mul hd1 hRK (abs_nonneg _) (le_of_lt (zpow_pos (by norm_num) _))
      _ = (2 : K) ^ (991 : Int) := by rw [← zpow_add₀ (by norm_num)]; norm_num
  obtain ⟨d2, h2, hd2⟩ := roundDouble_le_zpow (d1 * (R : K)) 991 (by norm_num) (by norm_num) hprod
  have hwpos : 0 < hi - lo := lt_of_lt_of_le (zpow_pos (by norm_num) _) hw1
  obtain ⟨d3, h3, -⟩ := roundDouble_le_zpow (hi - lo) 1023 (by norm_num) (by norm_num)
    (by rw [abs_of_pos hwpos]; exact hw2)
  have hd3 : (2 : K) ^ (-32 : Int) ≤ d3 :=
    roundDouble_ge_zpow (hi - lo) d3 (-32) (by norm_num) hw1 h3
  have hd3pos : 0 < d3 := lt_of_lt_of_le (zpow_pos (by norm_num) _) hd3
  have hquot : |d2 / d3| ≤ (2 : K) ^ (1023 : Int) := by
    rw [abs_div, abs_of_pos hd3pos, div_le_iff₀ hd3pos]
    calc |d2| ≤ (2 : K) ^ (991 : Int) := hd2
      _ = (2 : K) ^ (1023 : Int) * (2 : K) ^ (-32 : Int) := by
          rw [← zpow_add₀ (by norm_num)]; norm_num
      _ ≤ (2 : K) ^ (1023 : Int) * d3 :=
          mul_le_mul_of_nonneg_left hd3 (le_of_lt (zpow_pos (by norm_num) _))
  obtain ⟨q, h4, -⟩ := roundDouble_le_zpow (d2 / d3) 1023 (by norm_num) (by norm_num) hquot
  exact ⟨q, mapperQuotient_of_steps value lo hi R d1 d2 d3 q h1 h2 h3 (ne_of_gt hd3pos) h4⟩

theorem rowFromReal_of_quotient [FloorRing K] (value lo hi : K) (R : Int) (q : K)
    (h : mapperQuotient value lo hi R = some q) :
    rowFromReal value lo hi R = castToInt q := by
  simp only [rowFromReal, h]

/-- The index of a value at or above the lower bound is never negative. -/
theorem rowFromReal_nonneg [FloorRing K] (value lo hi : K) (R idx : Int)
    (hlt : lo < hi) (hR : 0 < R) (hge : lo ≤ value)
    (h : rowFromReal value lo hi R = some idx) : 0 ≤ idx := by
  cases hq : mapperQuotient value lo hi R with
  | none => simp [rowFromReal, hq] at h
  | some q =>
    rw [rowFromReal_of_quotient value lo hi R q hq] at h
    have hq0 := (mapperQuotient_sign value lo hi R q hlt hR hq).1 hge
    rw [castToInt_eq_some q idx h, truncToInt_of_nonneg q hq0]
    exact Int.floor_nonneg.mpr hq0

/-- The lower bound itself is mapped to index `0`. -/
theorem rowFromReal_at_min [FloorRing K] (lo hi : K) (R : Int) (d3 : K)
    (hd : roundDouble (hi - lo) = some d3) (hd0 : d3 ≠ 0) :
    rowFromReal lo lo hi R = some 0 := by
  have hq : mapperQuotient lo lo hi R = some 0 :=
    mapperQuotient_of_steps lo lo hi R 0 0 d3 0 (by rw [sub_self]; exact roundDouble_zero)
      (by rw [zero_mul]; exact roundDouble_zero) hd hd0
      (by rw [zero_div]; exact roundDouble_zero)
  rw [rowFromReal_of_quotient lo lo hi R 0 hq]
  have h := castToInt_intCast (K := K) 0 (by decide)
  simpa using h

/-- Evaluation of one rounding of a positive number: `x` lies in the binade of
exponent `e` and its nearest multiple of the spacing is `y = n * 2^(e - 52)`. -/
theorem roundDouble_eq [FloorRing K] (x y : K) (e n : Int) (he : -1022 ≤ e)
    (hlo : (2 : K) ^ e ≤ x) (hhi : x < (2 : K) ^ (e + 1))
    (h1 : (n : K) - 1 / 2 < x / (2 : K) ^ (e - 52))
    (h2 : x / (2 : K) ^ (e - 52) < (n : K) + 1 / 2)
    (hy : y = (n : K) * (2 : K) ^ (e - 52))
    (hfin : -(2 : K) ^ (1024 : Nat) < y ∧ y < (2 : K) ^ (1024 : Nat)) :
    roundDouble x = some y := by
  have hx : 0 < x := lt_of_lt_of_le (zpow_pos (by norm_num) _) hlo
  rw [hy] at hfin ⊢
  exact roundDouble_of_near x e n he (by rw [abs_of_pos hx]; exact hlo)
    (by rw [abs_of_pos hx]; exact hhi) h1 h2 (abs_lt.mpr hfin)

/-- Evaluation of one rounding of a positive number that lies half-way between two
multiples of the spacing, the lower one with an even significand `n`. -/
theorem roundDouble_eq_tie [FloorRing K] (x y : K) (e n : Int) (he : -1022 ≤ e)
    (hlo : (2 : K) ^ e ≤ x) (hhi : x < (2 : K) ^ (e + 1))
    (hm : x / (2 : K) ^ (e - 52) = (n : K) + 1 / 2) (heven : n % 2 = 0)
    (hy : y = (n : K) * (2 : K) ^ (e - 52))
    (hfin : -(2 : K) ^ (1024 : Nat) < y ∧ y < (2 : K) ^ (1024 : Nat)) :
    roundDouble x = some y := by
  have hx : 0 < x := lt_of_lt_of_le (zpow_pos (by norm_num) _) hlo
  have hu : doubleUlp x = (2 : K) ^ (e - 52) := by
    rw [doubleUlp, doubleExponent_eq x e he (by rw [abs_of_pos hx]; exact hlo)
      (by rw [abs_of_pos hx]; exact hhi)]
  rw [hy] at hfin ⊢
  rw [roundDouble, hu, roundHalfEven_of_tie_even _ n hm heven, if_pos (abs_lt.mpr hfin)]

/-- Evaluation of one rounding of a negative number. -/
theorem roundDouble_eq_neg [FloorRing K] (x y : K) (e n : Int) (he : -1022 ≤ e)
    (hlo : (2 : K) ^ e ≤ -x) (hhi : -x < (2 : K) ^ (e + 1))
    (h1 : (n : K) - 1 / 2 < x / (2 : K) ^ (e - 52))
    (h2 : x / (2 : K) ^ (e - 52) < (n : K) + 1 / 2)
    (hy : y = (n : K) * (2 : K) ^ (e - 52))
    (hfin : -(2 : K) ^ (1024 : Nat) < y ∧ y < (2 : K) ^ (1024 : Nat)) :
    roundDouble x = some y := by
  have hx : x < 0 := neg_pos.mp (lt_of_lt_of_le (zpow_pos (by norm_num) _) hlo)
  rw [hy] at hfin ⊢
  exact roundDouble_of_near x e n he (by rw [abs_of_neg hx]; exact hlo)
    (by rw [abs_of_neg hx]; exact hhi) h1 h2 (abs_lt.mpr hfin)

/-- A conversion of a defined quotient that fits in `int`. -/
theorem rowFromReal_of_steps [FloorRing K] (value lo hi : K) (R : Int) (d1 d2 d3 q : K)
    (idx : Int)
    (h1 : roundDouble (value - lo) = some d1)
    (h2 : roundDouble (d1 * (R : K)) = some d2)
    (h3 : roundDouble (hi - lo) = some d3) (hd3 : d3 ≠ 0)
    (h4 : roundDouble (d2 / d3) = some q)
    (hidx : truncToInt q = idx) (hfit : INT_MIN ≤ idx ∧ idx ≤ INT_MAX) :
    rowFromReal value lo hi R = some idx := by
  rw [rowFromReal_of_quotient value lo hi R q
    (mapperQuotient_of_steps value lo hi R d1 d2 d3 q h1 h2 h3 hd3 h4),
    castToInt_of_fits q (by rw [hidx]; exact hfit), hidx]

/-- The value `3`, the width of the program's region on both axes, is a `double`. -/
theorem roundDouble_three [FloorRing K] : roundDouble (3 : K) = some 3 :=
  roundDouble_of_exact 3 1 (3 * 2 ^ 51) (by decide) (by norm_num) (by norm_num) (by norm_num)
    (by norm_num)

/-- Evaluation: the point `1.0` on the upper edge of the real axis of the program's
region is mapped to row `1000`; every operation is exact. -/
theorem rowFromReal_edge_example (K : Type) [LinearOrderedField K] [FloorRing K] :
    rowFromReal (1 : K) (minimum : Complex K).r (maximum : Complex K).r winSize
      = some 1000 := by
  simp only [minimum, maximum, winSize]
  refine rowFromReal_of_steps (1 : K) (-2) 1 1000 3 3000 3 1000 1000 ?_ ?_ ?_ (by norm_num)
    ?_ ?_ (by decide)
  · rw [show (1 : K) - -2 = 3 by norm_num]; exact roundDouble_three
  · exact roundDouble_eq _ 3000 11 (3000 * 2 ^ 41) (by decide) (by norm_num) (by norm_num)
      (by norm_num) (by norm_num) (by norm_num) (by constructor <;> norm_num)
  · rw [show (1 : K) - -2 = 3 by norm_num]; exact roundDouble_three
  · exact roundDouble_eq _ 1000 9 (1000 * 2 ^ 43) (by decide) (by norm_num) (by norm_num)
      (by norm_num) (by norm_num) (by norm_num) (by constructor <;> norm_num)
  · have h := truncToInt_intCast (K := K) 1000
    simpa using h

/-- Evaluation: the imaginary part `-9/32` is mapped to column `406`; every operation
is exact, the quotient is `406.25`. -/
theorem colFromImag_edge_example (K : Type) [LinearOrderedField K] [FloorRing K] :
    colFromImag (-9 / 32 : K) (minimum : Complex K).i (maximum : Complex K).i winSize
      = some 406 := by
  simp only [minimum, maximum, winSize]
  rw [colFromImag_eq_rowFromReal]
  refine rowFromReal_of_steps (-9 / 32 : K) (-3 / 2) (3 / 2) 1000 (39 / 32) (4875 / 4) 3
    (1625 / 4) 406 ?_ ?_ ?_ (by norm_num) ?_ ?_ (by decide)
  · exact roundDouble_eq _ (39 / 32) 0 (39 * 2 ^ 47) (by decide) (by norm_num) (by norm_num)
      (by norm_num) (by norm_num) (by norm_num) (by constructor <;> norm_num)
  · exact roundDouble_eq _ (4875 / 4) 10 (4875 * 2 ^ 40) (by decide) (by norm_num)
      (by norm_num) (by norm_num) (by norm_num) (by norm_num) (by constructor <;> norm_num)
  · rw [show (3 / 2 : K) - -3 / 2 = 3 by norm_num]; exact roundDouble_three
  · exact roundDouble_eq _ (1625 / 4) 8 (1625 * 2 ^ 42) (by decide) (by norm_num)
      (by norm_num) (by norm_num) (by norm_num) (by norm_num) (by constructor <;> norm_num)
  · rw [truncToInt_of_nonneg _ (by norm_num), Int.floor_eq_iff]
    constructor <;> norm_num

/-- Evaluation: the point `1 - 2^-53`, the largest `double` below the upper edge `1.0`,
is also mapped to row `1000`: the difference `3 - 2^-53` rounds to `3`. -/
theorem rowFromReal_below_edge_example (K : Type) [LinearOrderedField K] [FloorRing K] :
    rowFromReal (9007199254740991 / 9007199254740992 : K) (minimum : Complex K).r
      (maximum : Complex K).r winSize = some 1000 := by
  simp only [minimum, maximum, winSize]
  refine rowFromReal_of_steps (9007199254740991 / 9007199254740992 : K) (-2) 1 1000 3 3000 3
    1000 1000 ?_ ?_ ?_ (by norm_num) ?_ ?_ (by decide)
  · exact roundDouble_eq _ 3 1 (3 * 2 ^ 51) (by decide) (by norm_num) (by norm_num)
      (by norm_num) (by norm_num) (by norm_num) (by constructor <;> norm_num)
  · exact roundDouble_eq _ 3000 11 (3000 * 2 ^ 41) (by decide) (by norm_num) (by norm_num)
      (by norm_num) (by norm_num) (by norm_num) (by constructor <;> norm_num)
  · rw [show (1 : K) - -2 = 3 by norm_num]; exact roundDouble_three
  · exact roundDouble_eq _ 1000 9 (1000 * 2 ^ 43) (by decide) (by norm_num) (by norm_num)
      (by norm_num) (by norm_num) (by norm_num) (by constructor <;> norm_num)
  · have h := truncToInt_intCast (K := K) 1000
    simpa using h

/-- Evaluation: the quotient for `value = -1`, `min = 0`, `max = 2`, `R = 1` is `-1/2`;
every operation is exact. -/
theorem mapperQuotient_below_example : mapperQuotient (-1 : ℚ) 0 2 1 = some (-1 / 2) := by
  refine mapperQuotient_of_steps (-1 : ℚ) 0 2 1 (-1) (-1) 2 (-1 / 2) ?_ ?_ ?_ (by norm_num) ?_
  · exact roundDouble_eq_neg _ (-1) 0 (-(2 ^ 52)) (by decide) (by norm_num) (by norm_num)
      (by norm_num) (by norm_num) (by norm_num) (by constructor <;> norm_num)
  · exact roundDouble_eq_neg _ (-1) 0 (-(2 ^ 52)) (by decide) (by norm_num) (by norm_num)
      (by norm_num) (by norm_num) (by norm_num) (by constructor <;> norm_num)
  · exact roundDouble_eq _ 2 1 (2 ^ 52) (by decide) (by norm_num) (by norm_num)
      (by norm_num) (by norm_num) (by norm_num) (by constructor <;> norm_num)
  · exact roundDouble_eq_neg _ (-1 / 2) (-1) (-(2 ^ 52)) (by decide) (by norm_num)
      (by norm_num) (by norm_num) (by norm_num) (by norm_num) (by constructor <;> norm_num)

/-- Evaluation: in the program's region with resolution `4` the real part `-2` is mapped
to row `0`. -/
theorem rowFromReal_corner_example (K : Type) [LinearOrderedField K] [FloorRing K] :
    rowFromReal (-2 : K) (minimum : Complex K).r (maximum : Complex K).r 4 = some 0 := by
  simp only [minimum, maximum]
  exact rowFromReal_at_min (-2 : K) 1 4 3
    (by rw [show (1 : K) - -2 = 3 by norm_num]; exact roundDouble_three) (by norm_num)

/-- Evaluation: in the program's region with resolution `4` the imaginary part `1` is
mapped to column `3`; the quotient `10/3` rounds to `7505999378950827 * 2^-51`. -/
theorem colFromImag_one_example (K : Type) [LinearOrderedField K] [FloorRing K] :
    colFromImag (1 : K) (minimum : Complex K).i (maximum : Complex K).i 4 = some 3 := by
  simp only [minimum, maximum]
  rw [colFromImag_eq_rowFromReal]
  refine rowFromReal_of_steps (1 : K) (-3 / 2) (3 / 2) 4 (5 / 2) 10 3
    (7505999378950827 / 2251799813685248) 3 ?_ ?_ ?_ (by norm_num) ?_ ?_ (by decide)
  · exact roundDouble_eq _ (5 / 2) 1 (5 * 2 ^ 50) (by decide) (by norm_num) (by norm_num)
      (by norm_num) (by norm_num) (by norm_num) (by constructor <;> norm_num)
  · exact roundDouble_eq _ 10 3 (5 * 2 ^ 50) (by decide) (by norm_num) (by norm_num)
      (by norm_num) (by norm_num) (by norm_num) (by constructor <;> norm_num)
  · rw [show (3 / 2 : K) - -3 / 2 = 3 by norm_num]; exact roundDouble_three
  · exact roundDouble_eq _ (7505999378950827 / 2251799813685248) 1 7505999378950827
      (by decide) (by norm_num) (by norm_num) (by norm_num) (by norm_num) (by norm_num)
      (by constructor <;> norm_num)
  · rw [truncToInt_of_nonneg _ (by norm_num), Int.floor_eq_iff]
    constructor <;> norm_num

theorem roundDouble_three_sub : roundDouble ((1 : ℚ) - -2) = some 3 := by
  rw [show (1 : ℚ) - -2 = 3 by norm_num]; exact roundDouble_three

/-- The three rounded operations of `max - (max - min) / R`. -/
theorem onePixelBelowMax_of_steps [FloorRing K] (lo hi : K) (R : Int) (w u v : K)
    (h1 : roundDouble (hi - lo) = some w) (h2 : roundDouble (w / (R : K)) = some u)
    (h3 : roundDouble (hi - u) = some v) : onePixelBelowMax lo hi R = some v := by
  simp only [onePixelBelowMax, h1, h2, h3]

/-- Evaluation: for `min = -2`, `max = 1`, `R = 17` the coordinate one pixel unit below
`max` is `7417693503904346 * 2^-53` in `double`. -/
theorem onePixelBelowMax_seventeen :
    onePixelBelowMax (-2 : ℚ) 1 17 = some (7417693503904346 / 9007199254740992) := by
  refine onePixelBelowMax_of_steps (-2 : ℚ) 1 17 3 (6358023003346583 / 36028797018963968)
    (7417693503904346 / 9007199254740992) roundDouble_three_sub ?_ ?_
  · exact roundDouble_eq _ _ (-3) 6358023003346583 (by decide) (by norm_num) (by norm_num)
      (by norm_num) (by norm_num) (by norm_num) (by constructor <;> norm_num)
  · exact roundDouble_eq _ _ (-1) 7417693503904346 (by decide) (by norm_num) (by norm_num)
      (by norm_num) (by norm_num) (by norm_num) (by constructor <;> norm_num)

/-- Evaluation: for that coordinate and `R = 17` the computed quotient is
`9007199254740991 * 2^-49`, the largest `double` below `16`: the sum `value + 2` is a
tie and rounds down to the even significand. -/
theorem mapperQuotient_seventeen :
    mapperQuotient (7417693503904346 / 9007199254740992 : ℚ) (-2) 1 17
      = some (9007199254740991 / 562949953421312) := by
  refine mapperQuotient_of_steps (7417693503904346 / 9007199254740992 : ℚ) (-2) 1 17
    (6358023003346582 / 2251799813685248) (6755399441055743 / 140737488355328) 3
    (9007199254740991 / 562949953421312) ?_ ?_ roundDouble_three_sub (by norm_num) ?_
  · exact roundDouble_eq_tie _ _ 1 6358023003346582 (by decide) (by norm_num) (by norm_num)
      (by norm_num) (by decide) (by norm_num) (by constructor <;> norm_num)
  · exact roundDouble_eq _ _ 5 6755399441055743 (by decide) (by norm_num) (by norm_num)
      (by norm_num) (by norm_num) (by norm_num) (by constructor <;> norm_num)
  · exact roundDouble_eq _ _ 3 9007199254740991 (by decide) (by norm_num) (by norm_num)
      (by norm_num) (by norm_num) (by norm_num) (by constructor <;> norm_num)

/-- Evaluation: for `min = -2`, `max = 1`, `R = 1000` the coordinate one pixel unit
below `max` is `8980177656976769 * 2^-53` in `double`. -/
theorem onePixelBelowMax_thousand :
    onePixelBelowMax (-2 : ℚ) 1 1000 = some (8980177656976769 / 9007199254740992) := by
  refine onePixelBelowMax_of_steps (-2 : ℚ) 1 1000 3
    (6917529027641082 / 2305843009213693952) (8980177656976769 / 9007199254740992)
    roundDouble_three_sub ?_ ?_
  · exact roundDouble_eq _ _ (-9) 6917529027641082 (by decide) (by norm_num) (by norm_num)
      (by norm_num) (by norm_num) (by norm_num) (by constructor <;> norm_num)
  · exact roundDouble_eq _ _ (-1) 8980177656976769 (by decide) (by norm_num) (by norm_num)
      (by norm_num) (by norm_num) (by norm_num) (by constructor <;> norm_num)

/-- Evaluation: for that coordinate and `R = 1000` the computed quotient is `999` and
so is the index. -/
theorem rowFromReal_thousand :
    rowFromReal (8980177656976769 / 9007199254740992 : ℚ) (-2) 1 1000 = some 999 := by
  refine rowFromReal_of_steps (8980177656976769 / 9007199254740992 : ℚ) (-2) 1 1000
    (6748644041614688 / 2251799813685248) 2997 3 999 999 ?_ ?_ roundDouble_three_sub
    (by norm_num) ?_ ?_ (by decide)
  · exact roundDouble_eq _ _ 1 6748644041614688 (by decide) (by norm_num) (by norm_num)
      (by norm_num) (by norm_num) (by norm_num) (by constructor <;> norm_num)
  · exact roundDouble_eq _ _ 11 6590472696889344 (by decide) (by norm_num) (by norm_num)
      (by norm_num) (by norm_num) (by norm_num) (by constructor <;> norm_num)
  · exact roundDouble_eq _ _ 9 8787296929185792 (by decide) (by norm_num) (by norm_num)
      (by norm_num) (by norm_num) (by norm_num) (by constructor <;> norm_num)
  · have h := truncToInt_intCast (K := ℚ) 999
    simpa using h

/-! ## Monotonicity of rounding and the index bound of the program's configuration -/

theorem roundHalfEven_le_floor_add_one [FloorRing K] (m : K) : roundHalfEven m ≤ ⌊m⌋ + 1 := by
  unfold roundHalfEven
  split_ifs <;> omega

theorem floor_le_roundHalfEven [FloorRing K] (m : K) : ⌊m⌋ ≤ roundHalfEven m := by
  unfold roundHalfEven
  split_ifs <;> omega

theorem roundHalfEven_mono [FloorRing K] (m m2 : K) (h : m ≤ m2) :
    roundHalfEven m ≤ roundHalfEven m2 := by
  have hf : ⌊m⌋ ≤ ⌊m2⌋ := Int.floor_le_floor h
  rcases eq_or_lt_of_le hf with heq | hlt
  · have hc : (⌊m⌋ : K) = (⌊m2⌋ : K) := by rw [heq]
    unfold roundHalfEven
    rw [← heq]
    split_ifs <;> first | omega | (exfalso; linarith)
  · have h1 := roundHalfEven_le_floor_add_one m
    have h2 := floor_le_roundHalfEven m2
    omega

/-- A defined rounding is the rounded multiple of the spacing and is finite. -/
theorem roundDouble_some [FloorRing K] (x y : K) (h : roundDouble x = some y) :
    y = (roundHalfEven (x / doubleUlp x) : K) * doubleUlp x ∧ |y| < (2 : K) ^ (1024 : Nat) := by
  unfold roundDouble at h
  split at h
  · rename_i hfin
    have hy := Option.some.inj h
    exact ⟨hy.symm, by rw [← hy]; exact hfin⟩
  · exact absurd h (by simp)

theorem doubleExponent_mono [FloorRing K] (x x2 : K) (hx : 0 < x) (h : x ≤ x2) :
    doubleExponent x ≤ doubleExponent x2 := by
  have h1 : Int.log 2 |x| ≤ Int.log 2 |x2| := by
    rw [abs_of_pos hx, abs_of_pos (lt_of_lt_of_le hx h)]
    exact Int.log_mono_right hx h
  unfold doubleExponent
  omega

/-- Rounding to nearest is monotone on the non-negative numbers: below a number with a
defined rounding every non-negative number has a defined rounding, which is not
larger. -/
theorem roundDouble_mono_nonneg [FloorRing K] (x x2 y2 : K) (hx : 0 ≤ x) (h : x ≤ x2)
    (hy2 : roundDouble x2 = some y2) :
    ∃ y, roundDouble x = some y ∧ 0 ≤ y ∧ y ≤ y2 := by
  have hy2nonneg : 0 ≤ y2 := roundDouble_nonneg x2 y2 (le_trans hx h) hy2
  rcases eq_or_lt_of_le hx with h0 | hpos
  · rw [← h0]
    exact ⟨0, roundDouble_zero, le_refl 0, hy2nonneg⟩
  · have hpos2 : 0 < x2 := lt_of_lt_of_le hpos h
    obtain ⟨hy2eq, hy2fin⟩ := roundDouble_some x2 y2 hy2
    have hu : 0 < doubleUlp x := doubleUlp_pos x
    rcases eq_or_lt_of_le (doubleExponent_mono x x2 hpos h) with he | he
    · have hueq : doubleUlp x2 = doubleUlp x := by rw [doubleUlp, doubleUlp, he]
      have hr : roundHalfEven (x / doubleUlp x) ≤ roundHalfEven (x2 / doubleUlp x) :=
        roundHalfEven_mono _ _ (div_le_div_of_nonneg_right h (le_of_lt hu))
      have hr0 : 0 ≤ roundHalfEven (x / doubleUlp x) :=
        roundHalfEven_nonneg _ (div_nonneg hx (le_of_lt hu))
      have hyle : (roundHalfEven (x / doubleUlp x) : K) * doubleUlp x ≤ y2 := by
        rw [hy2eq, hueq]
        exact mul_le_mul_of_nonneg_right (by exact_mod_cast hr) (le_of_lt hu)
      have hy0 : (0 : K) ≤ (roundHalfEven (x / doubleUlp x) : K) * doubleUlp x :=
        mul_nonneg (by exact_mod_cast hr0) (le_of_lt hu)
      refine ⟨_, ?_, hy0, hyle⟩
      rw [roundDouble, if_pos]
      rw [abs_of_nonneg hy0]
      exact lt_of_le_of_lt hyle (lt_of_le_of_lt (le_abs_self y2) hy2fin)
    · have hlog2 : doubleExponent x2 = Int.log 2 |x2| := by
        have h1 : -1022 ≤ doubleExponent x := by unfold doubleExponent; omega
        have h2 : doubleExponent x2 = max (Int.log 2 |x2|) (-1022) := rfl
        omega
      have hk : -1022 ≤ doubleExponent x2 := by unfold doubleExponent; omega
      have hge : (2 : K) ^ (doubleExponent x2) ≤ x2 := by
        rw [hlog2]
        have := Int.zpow_log_le_self (b := 2) (r := |x2|) (by norm_num)
          (by rw [abs_of_pos hpos2]; exact hpos2)
        simpa [abs_of_pos hpos2] using this
      have hy2ge := roundDouble_ge_zpow x2 y2 _ hk hge hy2
      have hk2 : doubleExponent x2 ≤ 1023 := by
        have hlt : (2 : K) ^ (doubleExponent x2) < (2 : K) ^ ((1024 : Nat) : Int) := by
          rw [zpow_natCast]
          exact lt_of_le_of_lt hy2ge (lt_of_le_of_lt (le_abs_self y2) hy2fin)
        have := (zpow_lt_zpow_iff_right₀ (by norm_num : (1 : K) < 2)).mp hlt
        omega
      have hxlt : |x| ≤ (2 : K) ^ (doubleExponent x2) := by
        rw [abs_of_pos hpos]
        have h1 : x < (2 : K) ^ (Int.log 2 x + 1) := by
          have := Int.lt_zpow_succ_log_self (b := 2) (by norm_num) x
          simpa using this
        have h2 : Int.log 2 x + 1 ≤ doubleExponent x2 := by
          have h3 : doubleExponent x = max (Int.log 2 |x|) (-1022) := rfl
          rw [abs_of_pos hpos] at h3
          omega
        exact le_trans (le_of_lt h1) (zpow_le_zpow_right₀ (by norm_num) h2)
      obtain ⟨y, hy, hyle⟩ := roundDouble_le_zpow x _ hk hk2 hxlt
      exact ⟨y, hy, roundDouble_nonneg x y hx hy,
        le_trans (le_trans (le_abs_self y) hyle) hy2ge⟩

/-- The three roundings of the chain for the width `3` and resolution `1000` at the
largest offset `3 - 2^-51` that stays below `3`: the offset is a `double`, its product
with `1000` rounds to `3000 - 2^-41`, and the quotient by `3` to `1000 - 2^-43`. -/
theorem roundDouble_chain_thousand [FloorRing K] :
    roundDouble (6755399441055743 / 2251799813685248 : K)
      = some (6755399441055743 / 2251799813685248) ∧
    roundDouble ((6755399441055743 / 2251799813685248 : K) * ((1000 : Int) : K))
      = some (6597069766655999 / 2199023255552) ∧
    roundDouble ((6597069766655999 / 2199023255552 : K) / 3)
      = some (8796093022207999 / 8796093022208) := by
  refine ⟨?_, ?_, ?_⟩
  · exact roundDouble_eq _ _ 1 6755399441055743 (by decide) (by norm_num) (by norm_num)
      (by norm_num) (by norm_num) (by norm_num) (by constructor <;> norm_num)
  · exact roundDouble_eq _ _ 11 6597069766655999 (by decide) (by norm_num) (by norm_num)
      (by norm_num) (by norm_num) (by norm_num) (by constructor <;> norm_num)
  · exact roundDouble_eq _ _ 9 8796093022207999 (by decide) (by norm_num) (by norm_num)
      (by norm_num) (by norm_num) (by norm_num) (by constructor <;> norm_num)

/-- For a region of width `3` and resolution `1000`, a value from the lower bound up to
`2^-51` below the upper bound is mapped to an index from `0` to `999`. -/
theorem rowFromReal_lt_thousand [FloorRing K] (value lo hi : K)
    (hw : hi - lo = 3) (hge : lo ≤ value) (hle : value ≤ hi - 1 / 2251799813685248) :
    ∃ idx, rowFromReal value lo hi 1000 = some idx ∧ 0 ≤ idx ∧ idx < 1000 := by
  obtain ⟨hc1, hc2, hc3⟩ := roundDouble_chain_thousand (K := K)
  have hx1 : value - lo ≤ 6755399441055743 / 2251799813685248 := by
    have : hi = lo + 3 := by linarith
    rw [this] at hle
    linarith
  obtain ⟨d1, h1, hd10, hd1⟩ := roundDouble_mono_nonneg _ _ _ (sub_nonneg.mpr hge) hx1 hc1
  have hR0 : (0 : K) ≤ ((1000 : Int) : K) := by norm_num
  obtain ⟨d2, h2, hd20, hd2⟩ := roundDouble_mono_nonneg _ _ _ (mul_nonneg hd10 hR0)
    (mul_le_mul_of_nonneg_right hd1 hR0) hc2
  have h3 : roundDouble (hi - lo) = some 3 := by rw [hw]; exact roundDouble_three
  obtain ⟨q, h4, hq0, hq⟩ := roundDouble_mono_nonneg (d2 / 3) _ _
    (div_nonneg hd20 (by norm_num)) (div_le_div_of_nonneg_right hd2 (by norm_num)) hc3
  have hfl0 : 0 ≤ ⌊q⌋ := Int.floor_nonneg.mpr hq0
  have hfl : ⌊q⌋ < 1000 := by
    rw [Int.floor_lt]
    exact lt_of_le_of_lt hq (by norm_num)
  refine ⟨⌊q⌋, ?_, hfl0, hfl⟩
  exact rowFromReal_of_steps value lo hi 1000 d1 d2 3 q ⌊q⌋ h1 h2 h3 (by norm_num) h4
    (truncToInt_of_nonneg q hq0) ⟨le_trans (by decide) hfl0, by simp only [INT_MAX]; omega⟩

/-! ## The normaliser -/

theorem maxPassRow_nil (m : Int) : maxPassRow m [] = m := rfl

theorem maxPassRow_cons (m n : Int) (row : List Int) :
    maxPassRow m (n :: row) = maxPassRow (if n > m then n else m) row := rfl

theorem maxPassRow_ge_start (row : List Int) : ∀ m : Int, m ≤ maxPassRow m row := by
  induction row with
  | nil => intro m; exact le_refl m
  | cons n row ih =>
    intro m
    rw [maxPassRow_cons]
    refine le_trans ?_ (ih _)
    split <;> omega

theorem maxPassRow_ge_mem (row : List Int) :
    ∀ m : Int, ∀ n ∈ row, n ≤ maxPassRow m row := by
  induction row with
  | nil => intro m n hn; simp at hn
  | cons a row ih =>
    intro m n hn
    rw [maxPassRow_cons]
    rcases List.mem_cons.mp hn with h | h
    · subst h
      refine le_trans ?_ (maxPassRow_ge_start row _)
      split <;> omega
    · exact ih _ n h

theorem maxPassRow_eq_or_mem (row : List Int) :
    ∀ m : Int, maxPassRow m row = m ∨ maxPassRow m row ∈ row := by
  induction row with
  | nil => intro m; exact Or.inl rfl
  | cons a row ih =>
    intro m
    rw [maxPassRow_cons]
    rcases ih (if a > m then a else m) with h | h
    · rw [h]
      split
      · exact Or.inr (List.mem_cons_self _ _)
      · exact Or.inl rfl
    · exact Or.inr (List.mem_cons_of_mem _ h)

theorem foldl_maxPassRow_ge_start (g : List (List Int)) :
    ∀ m : Int, m ≤ g.foldl maxPassRow m := by
  induction g with
  | nil => intro m; exact le_refl m
  | cons row g ih =>
    intro m
    rw [List.foldl_cons]
    exact le_trans (maxPassRow_ge_start row m) (ih _)

theorem foldl_maxPassRow_ge_mem (g : List (List Int)) :
    ∀ m : Int, ∀ row ∈ g, ∀ n ∈ row, n ≤ g.foldl maxPassRow m := by
  induction g with
  | nil => intro m row hrow; simp at hrow
  | cons r g ih =>
    intro m row hrow n hn
    rw [List.foldl_cons]
    rcases List.mem_cons.mp hrow with h | h
    · subst h
      exact le_trans (maxPassRow_ge_mem row m n hn) (foldl_maxPassRow_ge_start g _)
    · exact ih _ row h n hn

theorem foldl_maxPassRow_eq_or_mem (g : List (List Int)) :
    ∀ m : Int, g.foldl maxPassRow m = m ∨ ∃ row ∈ g, g.foldl maxPassRow m ∈ row := by
  induction g with
  | nil => intro m; exact Or.inl rfl
  | cons r g ih =>
    intro m
    rw [List.foldl_cons]
    rcases ih (maxPassRow m r) with h | ⟨row, hrow, hmem⟩
    · rw [h]
      rcases maxPassRow_eq_or_mem r m with h2 | h2
      · exact Or.inl h2
      · exact Or.inr ⟨r, List.mem_cons_self _ _, h2⟩
    · exact Or.inr ⟨row, List.mem_cons_of_mem _ hrow, hmem⟩

/-- Every cell is at most `maxPass`. -/
theorem le_findMaxPass (nPass : List (List Int)) :
    ∀ row ∈ nPass, ∀ n ∈ row, n ≤ findMaxPass nPass :=
  foldl_maxPassRow_ge_mem nPass 0

/-- The value `maxPass` is never negative. -/
theorem findMaxPass_nonneg (nPass : List (List Int)) : 0 ≤ findMaxPass nPass :=
  foldl_maxPassRow_ge_start nPass 0

/-- The value `maxPass` is its start value `0` or the value of a cell. -/
theorem findMaxPass_eq_zero_or_mem (nPass : List (List Int)) :
    findMaxPass nPass = 0 ∨ ∃ row ∈ nPass, findMaxPass nPass ∈ row :=
  foldl_maxPassRow_eq_or_mem nPass 0

theorem normalizeRow_zero_cons (n : Int) (rest : List Int) :
    normalizeRow 0 (n :: rest) = none := by
  simp [normalizeRow, colorValue]

theorem normalizeRows_zero (g : List (List Int)) (h : ∃ row ∈ g, row ≠ []) :
    normalizeRows 0 g = none := by
  induction g with
  | nil =>
    obtain ⟨row, hrow, _⟩ := h
    simp at hrow
  | cons r g ih =>
    cases r with
    | cons n rest => simp [normalizeRows, normalizeRow_zero_cons]
    | nil =>
      obtain ⟨row, hrow, hne⟩ := h
      rcases List.mem_cons.mp hrow with h1 | h1
      · exact absurd h1 hne
      · simp [normalizeRows, normalizeRow, ih ⟨row, h1, hne⟩]

theorem normalizeRow_of_ne_zero (m : Int) (hm : m ≠ 0) (row : List Int) :
    normalizeRow m row = some (row.map (grayLevel m)) := by
  induction row with
  | nil => rfl
  | cons n rest ih => simp [normalizeRow, colorValue, hm, ih, grayLevel]

theorem normalizeRows_of_ne_zero (m : Int) (hm : m ≠ 0) (g : List (List Int)) :
    normalizeRows m g = some (g.map (fun row => row.map (grayLevel m))) := by
  induction g with
  | nil => rfl
  | cons r g ih => simp [normalizeRows, normalizeRow_of_ne_zero m hm, ih]

theorem cellAt_map (f : Int → Int) (g : List (List Int)) (y x : Nat) :
    cellAt (g.map (fun row => row.map f)) y x = (cellAt g y x).map f := by
  unfold cellAt
  rw [List.getElem?_map]
  cases g[y]? with
  | none => rfl
  | some row => simp [List.getElem?_map]

theorem wrapInt32_of_fits (x : Int) (h : INT_MIN ≤ x ∧ x ≤ INT_MAX) : wrapInt32 x = x := by
  unfold INT_MIN INT_MAX at h
  unfold wrapInt32
  omega

/-- The rational floor of a quotient of integers with a positive divisor. -/
theorem floor_intCast_div_intCast (a b : Int) (hb : 0 < b) :
    ⌊(a : ℚ) / (b : ℚ)⌋ = a / b := by
  obtain ⟨d, rfl⟩ := Int.eq_ofNat_of_zero_le (le_of_lt hb)
  exact_mod_cast Rat.floor_intCast_div_natCast a d

/-- Without overflow of the product, the gray level of a non-negative cell is the
floor of `255 * n / maxPass`. -/
theorem colorValue_of_fits (n m : Int) (hn : 0 ≤ n) (hfit : 255 * n ≤ INT_MAX)
    (hm : 0 < m) :
    colorValue n m = some ⌊((255 * n : Int) : ℚ) / (m : ℚ)⌋ := by
  have hw : wrapInt32 (255 * n) = 255 * n :=
    wrapInt32_of_fits _ ⟨by unfold INT_MIN; omega, hfit⟩
  rw [colorValue, if_neg (ne_of_gt hm), hw, floor_intCast_div_intCast _ _ hm,
    Int.tdiv_eq_ediv (by omega) (le_of_lt hm)]

theorem toUint8_of_byte (v : Int) (h : 0 ≤ v ∧ v ≤ 255) : toUint8 v = v := by
  unfold toUint8
  omega

/-- The floor of `255 * n / m` is a byte when `0 ≤ n ≤ m`. -/
theorem floor_quotient_byte (n m : Int) (hn : 0 ≤ n) (hle : n ≤ m) (hm : 0 < m) :
    0 ≤ ⌊((255 * n : Int) : ℚ) / (m : ℚ)⌋ ∧ ⌊((255 * n : Int) : ℚ) / (m : ℚ)⌋ ≤ 255 := by
  rw [floor_intCast_div_intCast _ _ hm]
  constructor
  · exact Int.ediv_nonneg (by omega) (le_of_lt hm)
  · have h1 : 255 * n / m ≤ 255 * m / m := Int.ediv_le_ediv hm (by omega)
    rwa [Int.mul_ediv_cancel _ (ne_of_gt hm)] at h1

theorem normalizeRows_of_no_cell (m : Int) (g : List (List Int))
    (h : ∀ row ∈ g, row = []) : normalizeRows m g = some g := by
  induction g with
  | nil => rfl
  | cons r g ih =>
    have hr : r = [] := h r (List.mem_cons_self _ _)
    subst hr
    simp [normalizeRows, normalizeRow, ih (fun row hrow => h row (List.mem_cons_of_mem _ hrow))]

/-- Without overflow of the product, the stored gray level of a cell `0 ≤ n ≤ m` is
the floor of `255 * n / m`. -/
theorem grayLevel_of_fits (n m : Int) (hn : 0 ≤ n) (hle : n ≤ m) (hm : 0 < m)
    (hfit : 255 * m ≤ INT_MAX) :
    grayLevel m n = ⌊((255 * n : Int) : ℚ) / (m : ℚ)⌋ := by
  have hc := colorValue_of_fits n m hn (by omega) hm
  rw [colorValue, if_neg (ne_of_gt hm)] at hc
  rw [grayLevel, Option.some.inj hc]
  exact toUint8_of_byte _ (floor_quotient_byte n m hn hle hm)

/-! ## Orbit tracer: the claims -/

/-- C1 (termination invariant): for every candidate and every bound `maxIter ≥ 1`, the
returned sequence never has length exactly `maxIter`; it is shorter than `maxIter`,
and it is empty whenever the loop performed `maxIter` iterations. -/
theorem buddhabrotPoint_length_lt_maxIter (c : Complex K) (maxIter : Nat)
    (hM : 1 ≤ maxIter) :
    (buddhabrotPoint c maxIter).length ≠ maxIter ∧
    (buddhabrotPoint c maxIter).length < maxIter ∧
    ((traceLoop c maxIter ⟨⟨0, 0⟩, [], 0⟩).counter = maxIter →
      buddhabrotPoint c maxIter = []) := by
  obtain ⟨m, hle, hcnt, _, _, hlt, heq⟩ := buddhabrotPoint_cases c maxIter
  have hlen : (buddhabrotPoint c maxIter).length < maxIter := by
    rcases Nat.lt_or_ge m maxIter with h | h
    · rw [hlt h, orbitPrefix_length]; exact h
    · rw [heq (by omega)]; simpa using hM
  refine ⟨by omega, hlen, ?_⟩
  intro hc
  exact heq (by rw [← hcnt]; exact hc)

/-- Witness of C1 at `c = (2, 2)`, `maxIter = 5`. -/
theorem buddhabrotPoint_length_lt_maxIter_witness :
    1 ≤ 5 ∧
    ((buddhabrotPoint (⟨2, 2⟩ : Complex ℚ) 5).length ≠ 5 ∧
     (buddhabrotPoint (⟨2, 2⟩ : Complex ℚ) 5).length < 5 ∧
     ((traceLoop (⟨2, 2⟩ : Complex ℚ) 5 ⟨⟨0, 0⟩, [], 0⟩).counter = 5 →
        buddhabrotPoint (⟨2, 2⟩ : Complex ℚ) 5 = [])) :=
  ⟨by decide, buddhabrotPoint_length_lt_maxIter ⟨2, 2⟩ 5 (by decide)⟩

/-- C2 (escape invariant): if `buddhabrotPoint c maxIter` is a non-empty sequence of
length below `maxIter`, its last point has squared magnitude above `2` and every
earlier point has squared magnitude at most `2`. -/
theorem buddhabrotPoint_escape_invariant (c : Complex K) (maxIter : Nat)
    (hne : buddhabrotPoint c maxIter ≠ [])
    (_hlen : (buddhabrotPoint c maxIter).length < maxIter) :
    (∃ last, (buddhabrotPoint c maxIter).getLast? = some last ∧ 2 < last.sqMagnitude) ∧
    (∀ z, z ∈ (buddhabrotPoint c maxIter).dropLast → z.sqMagnitude ≤ 2) := by
  obtain ⟨m, hle, _, hsmall, hbig, hlt, heq⟩ := buddhabrotPoint_cases c maxIter
  have hm : m < maxIter := by
    rcases Nat.lt_or_ge m maxIter with h | h
    · exact h
    · exact absurd (heq (by omega)) hne
  have hres := hlt hm
  cases m with
  | zero =>
    rw [hres] at hne
    exact absurd rfl hne
  | succ n =>
    rw [hres, orbitPrefix_succ]
    refine ⟨⟨orbitPoint c (n + 1), by simp, hbig hm⟩, ?_⟩
    intro z hz
    rw [List.dropLast_concat] at hz
    obtain ⟨j, hj, rfl⟩ := mem_orbitPrefix c n z hz
    exact hsmall (j + 1) (by omega)

/-- Witness of C2 at `c = (5/8, -1/8)` with the program's bound: the orbit has three
points. -/
theorem buddhabrotPoint_escape_invariant_witness :
    buddhabrotPoint (⟨5 / 8, -1 / 8⟩ : Complex ℚ) maxIter ≠ [] ∧
    (buddhabrotPoint (⟨5 / 8, -1 / 8⟩ : Complex ℚ) maxIter).length < maxIter ∧
    ((∃ last, (buddhabrotPoint (⟨5 / 8, -1 / 8⟩ : Complex ℚ) maxIter).getLast? = some last ∧
        2 < last.sqMagnitude) ∧
     (∀ z, z ∈ (buddhabrotPoint (⟨5 / 8, -1 / 8⟩ : Complex ℚ) maxIter).dropLast →
        z.sqMagnitude ≤ 2)) :=
  ⟨by rw [buddhabrotPoint_example ℚ]; simp,
   by rw [buddhabrotPoint_example ℚ]; decide,
   buddhabrotPoint_escape_invariant ⟨5 / 8, -1 / 8⟩ maxIter
     (by rw [buddhabrotPoint_example ℚ]; simp)
     (by rw [buddhabrotPoint_example ℚ]; decide)⟩

/-- C3, as stated, fails: for `c = (2, 2)` and `maxIter = 1` the loop exits at the
first iterate `z_1 = (2, 2)`, of squared magnitude `8 > 2`, which is the `maxIter`-th
one, and the tracer returns the empty sequence instead of `[z_1]`. -/
theorem buddhabrotPoint_escape_at_bound_discarded :
    (1 ≤ 1 ∧ 1 ≤ 1) ∧
    (∀ j, j < 1 → (orbitPoint (⟨2, 2⟩ : Complex ℚ) j).sqMagnitude ≤ 2) ∧
    2 < (orbitPoint (⟨2, 2⟩ : Complex ℚ) 1).sqMagnitude ∧
    buddhabrotPoint (⟨2, 2⟩ : Complex ℚ) 1 = [] ∧
    buddhabrotPoint (⟨2, 2⟩ : Complex ℚ) 1 ≠ orbitPrefix (⟨2, 2⟩ : Complex ℚ) 1 := by
  refine ⟨⟨le_refl 1, le_refl 1⟩, first_escape_two_two.1, first_escape_two_two.2,
    buddhabrotPoint_two_two_one, ?_⟩
  rw [buddhabrotPoint_two_two_one]
  simp [orbitPrefix]

/-- C3 (amended): if the first iterate of squared magnitude above `2` is `z_k`,
`1 ≤ k`, then for `k < maxIter` the tracer returns the non-empty sequence
`z_1 .. z_k`, up to and including the escaping iterate, and for `k ≥ maxIter` (in
particular when the escaping iterate is the `maxIter`-th one) it returns the empty
sequence. -/
theorem buddhabrotPoint_escape_result (c : Complex K) (maxIter k : Nat)
    (hk : 1 ≤ k) (hfirst : ∀ j, j < k → (orbitPoint c j).sqMagnitude ≤ 2)
    (hesc : 2 < (orbitPoint c k).sqMagnitude) :
    (k < maxIter →
      buddhabrotPoint c maxIter = orbitPrefix c k ∧ buddhabrotPoint c maxIter ≠ []) ∧
    (maxIter ≤ k → buddhabrotPoint c maxIter = []) := by
  constructor
  · intro hlt
    have hres := buddhabrotPoint_of_first_escape c maxIter k hlt hfirst hesc
    refine ⟨hres, ?_⟩
    intro hnil
    have hlen := orbitPrefix_length c k
    rw [← hres, hnil] at hlen
    simp at hlen
    omega
  · intro hge
    exact buddhabrotPoint_of_no_escape c maxIter (fun j hj => hfirst j (by omega))

/-- Witness of C3 (amended) at `c = (2, 2)`, `maxIter = 5`, `k = 1`. -/
theorem buddhabrotPoint_escape_result_witness :
    1 ≤ 1 ∧
    (∀ j, j < 1 → (orbitPoint (⟨2, 2⟩ : Complex ℚ) j).sqMagnitude ≤ 2) ∧
    2 < (orbitPoint (⟨2, 2⟩ : Complex ℚ) 1).sqMagnitude ∧
    ((1 < 5 →
        buddhabrotPoint (⟨2, 2⟩ : Complex ℚ) 5 = orbitPrefix ⟨2, 2⟩ 1 ∧
        buddhabrotPoint (⟨2, 2⟩ : Complex ℚ) 5 ≠ []) ∧
     (5 ≤ 1 → buddhabrotPoint (⟨2, 2⟩ : Complex ℚ) 5 = [])) :=
  ⟨le_refl 1, first_escape_two_two.1, first_escape_two_two.2,
   buddhabrotPoint_escape_result ⟨2, 2⟩ 5 1 (le_refl 1) first_escape_two_two.1
     first_escape_two_two.2⟩

/-- C4: a non-empty sequence returned by `buddhabrotPoint c maxIter` is the sequence
of iterates of `z ↦ z * z + c` started at zero: its first element is `c`, each later
element is the square of the previous one plus `c`, and element `i` is the iterate
`z_(i+1)`, so the seed `z_0 = (0, 0)` is not recorded. -/
theorem buddhabrotPoint_iterates (c : Complex K) (maxIter : Nat)
    (hne : buddhabrotPoint c maxIter ≠ []) :
    (buddhabrotPoint c maxIter).head? = some c ∧
    (∀ i, i + 1 < (buddhabrotPoint c maxIter).length →
      ∃ z, (buddhabrotPoint c maxIter)[i]? = some z ∧
        (buddhabrotPoint c maxIter)[i + 1]? = some (z * z + c)) ∧
    (∀ i, i < (buddhabrotPoint c maxIter).length →
      (buddhabrotPoint c maxIter)[i]? = some (orbitPoint c (i + 1))) := by
  obtain ⟨m, hle, _, _, _, hlt, heq⟩ := buddhabrotPoint_cases c maxIter
  have hm : m < maxIter := by
    rcases Nat.lt_or_ge m maxIter with h | h
    · exact h
    · exact absurd (heq (by omega)) hne
  have hres := hlt hm
  have hpos : 0 < m := by
    rcases Nat.eq_zero_or_pos m with h | h
    · subst h
      rw [hres] at hne
      exact absurd rfl hne
    · exact h
  rw [hres, orbitPrefix_length]
  refine ⟨?_, ?_, ?_⟩
  · rw [List.head?_eq_getElem?, orbitPrefix_getElem? c m 0 hpos, orbitPoint_one]
  · intro i hi
    refine ⟨orbitPoint c (i + 1), orbitPrefix_getElem? c m i (by omega), ?_⟩
    rw [orbitPrefix_getElem? c m (i + 1) hi, orbitPoint_succ c (i + 1)]
    rfl
  · intro i hi
    exact orbitPrefix_getElem? c m i hi

/-- Witness of C4 at `c = (5/8, -1/8)` with the program's bound. -/
theorem buddhabrotPoint_iterates_witness :
    buddhabrotPoint (⟨5 / 8, -1 / 8⟩ : Complex ℚ) maxIter ≠ [] ∧
    ((buddhabrotPoint (⟨5 / 8, -1 / 8⟩ : Complex ℚ) maxIter).head? = some ⟨5 / 8, -1 / 8⟩ ∧
     (∀ i, i + 1 < (buddhabrotPoint (⟨5 / 8, -1 / 8⟩ : Complex ℚ) maxIter).length →
       ∃ z, (buddhabrotPoint (⟨5 / 8, -1 / 8⟩ : Complex ℚ) maxIter)[i]? = some z ∧
         (buddhabrotPoint (⟨5 / 8, -1 / 8⟩ : Complex ℚ) maxIter)[i + 1]?
           = some (z * z + ⟨5 / 8, -1 / 8⟩)) ∧
     (∀ i, i < (buddhabrotPoint (⟨5 / 8, -1 / 8⟩ : Complex ℚ) maxIter).length →
       (buddhabrotPoint (⟨5 / 8, -1 / 8⟩ : Complex ℚ) maxIter)[i]?
         = some (orbitPoint ⟨5 / 8, -1 / 8⟩ (i + 1)))) :=
  ⟨by rw [buddhabrotPoint_example ℚ]; simp,
   buddhabrotPoint_iterates ⟨5 / 8, -1 / 8⟩ maxIter
     (by rw [buddhabrotPoint_example ℚ]; simp)⟩

/-! ## Coordinate mapper and accumulator indices: the claims -/

/-- C6 fails on the code at the upper edge of the region.  The candidate
`(5/8, -1/8)` passes the candidate filter; its orbit for the program's bound is
returned and has the second point `(1, -9/32)`; that point passes the accumulator's
range check for the program's region, since `1 <= maximum.r`; `colFromImag` maps it to
column `406`, and `rowFromReal` maps it to row `1000 = winSize`, which is not a valid
index of `nPass`. -/
theorem row_index_reaches_winSize :
    rejectedByFilter Real.sqrt (⟨5 / 8, -1 / 8⟩ : Complex ℝ) = false ∧
    buddhabrotPoint (⟨5 / 8, -1 / 8⟩ : Complex ℝ) maxIter
      = [⟨5 / 8, -1 / 8⟩, ⟨1, -9 / 32⟩, ⟨1583 / 1024, -11 / 16⟩] ∧
    inRegion (⟨1, -9 / 32⟩ : Complex ℝ) minimum maximum = true ∧
    colFromImag (-9 / 32 : ℝ) (minimum : Complex ℝ).i (maximum : Complex ℝ).i winSize
      = some 406 ∧
    rowFromReal (1 : ℝ) (minimum : Complex ℝ).r (maximum : Complex ℝ).r winSize
      = some 1000 ∧
    ¬ ((1000 : Int) < winSize) := by
  refine ⟨rejectedByFilter_example, buddhabrotPoint_example ℝ, ?_,
    colFromImag_edge_example ℝ, rowFromReal_edge_example ℝ, by decide⟩
  simp only [inRegion, minimum, maximum, decide_eq_true_eq]
  norm_num

/-- C10, as stated, fails below the lower bound: for `value = -1`, `min = 0`,
`max = 2`, `R = 1` the quotient is `-1/2`, whose floor is `-1`, while both mapper
functions return `0`. -/
theorem mapper_truncates_below_min :
    ⌊((-1 : ℚ) - 0) * ((1 : Int) : ℚ) / (2 - 0)⌋ = -1 ∧
    rowFromReal (-1 : ℚ) 0 2 1 = some 0 ∧
    colFromImag (-1 : ℚ) 0 2 1 = some 0 := by
  have hq : ((-1 : ℚ) - 0) * ((1 : Int) : ℚ) / (2 - 0) = -1 / 2 := by norm_num
  have hfloor : ⌊(-1 / 2 : ℚ)⌋ = -1 := by
    rw [Int.floor_eq_iff]; constructor <;> norm_num
  have hceil : ⌈(-1 / 2 : ℚ)⌉ = 0 := by
    rw [Int.ceil_eq_iff]; constructor <;> norm_num
  have htrunc : truncToInt (-1 / 2 : ℚ) = 0 := by
    rw [truncToInt_of_neg _ (by norm_num), hceil]
  have hrow : rowFromReal (-1 : ℚ) 0 2 1 = some 0 := by
    rw [rowFromReal_of_quotient _ _ _ _ _ mapperQuotient_below_example,
      castToInt_of_fits _ (by rw [htrunc]; decide), htrunc]
  refine ⟨by rw [hq, hfloor], hrow, ?_⟩
  rw [colFromImag_eq_rowFromReal]
  exact hrow

/-- C10 (amended): for bounds `lo < hi` and a resolution `R > 0`, `rowFromReal` and
`colFromImag` return the quotient `(value - lo) * R / (hi - lo)`, as the program
computes it in `double`, rounded toward zero whenever that is representable in `int`:
its floor for `value ≥ lo`, and its ceiling, not its floor, for `value < lo`.  When
none of the four operations rounds, the computed quotient is the exact one.  The
computed quotient exists whenever `|value - lo| ≤ 2^960`, `2^-32 ≤ hi - lo ≤ 2^1023`
and `R ≤ INT_MAX`. -/
theorem mapper_rounds_toward_zero [FloorRing K] (value lo hi : K) (R : Int)
    (hlt : lo < hi) (hR : 0 < R) :
    (∀ q : K, mapperQuotient value lo hi R = some q →
      (lo ≤ value → ⌊q⌋ ≤ INT_MAX →
        rowFromReal value lo hi R = some ⌊q⌋ ∧ colFromImag value lo hi R = some ⌊q⌋) ∧
      (value < lo → INT_MIN ≤ ⌈q⌉ →
        rowFromReal value lo hi R = some ⌈q⌉ ∧ colFromImag value lo hi R = some ⌈q⌉) ∧
      (roundDouble (value - lo) = some (value - lo) →
        roundDouble ((value - lo) * (R : K)) = some ((value - lo) * (R : K)) →
        roundDouble (hi - lo) = some (hi - lo) →
        roundDouble ((value - lo) * (R : K) / (hi - lo))
          = some ((value - lo) * (R : K) / (hi - lo)) →
        q = (value - lo) * (R : K) / (hi - lo))) ∧
    (|value - lo| ≤ (2 : K) ^ (960 : Int) → (2 : K) ^ (-32 : Int) ≤ hi - lo →
      hi - lo ≤ (2 : K) ^ (1023 : Int) → R ≤ INT_MAX →
      ∃ q : K, mapperQuotient value lo hi R = some q) := by
  refine ⟨?_, fun hv hw1 hw2 hRmax => mapperQuotient_defined value lo hi R hR hv hw1 hw2 hRmax⟩
  intro q hq
  have hsign := mapperQuotient_sign value lo hi R q hlt hR hq
  refine ⟨?_, ?_, ?_⟩
  · intro hge hfit
    have hq0 := hsign.1 hge
    have htr := truncToInt_of_nonneg q hq0
    have hfl : 0 ≤ ⌊q⌋ := Int.floor_nonneg.mpr hq0
    have hrow : rowFromReal value lo hi R = some ⌊q⌋ := by
      rw [rowFromReal_of_quotient value lo hi R q hq,
        castToInt_of_fits _ (by rw [htr]; exact ⟨le_trans (by decide) hfl, hfit⟩), htr]
    exact ⟨hrow, by rw [colFromImag_eq_rowFromReal]; exact hrow⟩
  · intro hbelow hfit
    have hq0 := hsign.2 (le_of_lt hbelow)
    have htr := truncToInt_of_nonpos q hq0
    have hcl : ⌈q⌉ ≤ 0 := by
      rw [Int.ceil_le]; exact_mod_cast hq0
    have hrow : rowFromReal value lo hi R = some ⌈q⌉ := by
      rw [rowFromReal_of_quotient value lo hi R q hq,
        castToInt_of_fits _ (by rw [htr]; exact ⟨hfit, le_trans hcl (by decide)⟩), htr]
    exact ⟨hrow, by rw [colFromImag_eq_rowFromReal]; exact hrow⟩
  · intro h1 h2 h3 h4
    have hexact := mapperQuotient_of_steps value lo hi R _ _ _ _ h1 h2 h3
      (ne_of_gt (sub_pos.mpr hlt)) h4
    rw [hq] at hexact
    exact Option.some.inj hexact

/-- Witness of C10 (amended) at `value = -1`, `lo = 0`, `hi = 2`, `R = 1`, where the
computed quotient is `-1/2`. -/
theorem mapper_rounds_toward_zero_witness :
    (0 : ℚ) < 2 ∧ (0 : Int) < 1 ∧ mapperQuotient (-1 : ℚ) 0 2 1 = some (-1 / 2) ∧
    ((∀ q : ℚ, mapperQuotient (-1 : ℚ) 0 2 1 = some q →
      ((0 : ℚ) ≤ -1 → ⌊q⌋ ≤ INT_MAX →
        rowFromReal (-1 : ℚ) 0 2 1 = some ⌊q⌋ ∧ colFromImag (-1 : ℚ) 0 2 1 = some ⌊q⌋) ∧
      ((-1 : ℚ) < 0 → INT_MIN ≤ ⌈q⌉ →
        rowFromReal (-1 : ℚ) 0 2 1 = some ⌈q⌉ ∧ colFromImag (-1 : ℚ) 0 2 1 = some ⌈q⌉) ∧
      (roundDouble ((-1 : ℚ) - 0) = some ((-1 : ℚ) - 0) →
        roundDouble (((-1 : ℚ) - 0) * ((1 : Int) : ℚ)) = some (((-1 : ℚ) - 0) * ((1 : Int) : ℚ)) →
        roundDouble ((2 : ℚ) - 0) = some ((2 : ℚ) - 0) →
        roundDouble (((-1 : ℚ) - 0) * ((1 : Int) : ℚ) / (2 - 0))
          = some (((-1 : ℚ) - 0) * ((1 : Int) : ℚ) / (2 - 0)) →
        q = ((-1 : ℚ) - 0) * ((1 : Int) : ℚ) / (2 - 0))) ∧
     (|(-1 : ℚ) - 0| ≤ (2 : ℚ) ^ (960 : Int) → (2 : ℚ) ^ (-32 : Int) ≤ 2 - 0 →
      (2 : ℚ) - 0 ≤ (2 : ℚ) ^ (1023 : Int) → (1 : Int) ≤ INT_MAX →
      ∃ q : ℚ, mapperQuotient (-1 : ℚ) 0 2 1 = some q)) :=
  ⟨by norm_num, by decide, mapperQuotient_below_example,
   mapper_rounds_toward_zero (-1 : ℚ) 0 2 1 (by norm_num) (by decide)⟩

/-! ## Normaliser: the claims -/

/-- C7, as stated, fails: for the all-zero `4 × 4` grid the maximum search leaves
`maxPass = 0`, the expression `255 * 0 / maxPass` is a division by zero, and the
normaliser produces no image. -/
theorem normalize_zero_grid_undefined :
    findMaxPass (List.replicate 4 (List.replicate 4 0)) = 0 ∧
    colorValue 0 (findMaxPass (List.replicate 4 (List.replicate 4 0))) = none ∧
    normalize (List.replicate 4 (List.replicate 4 0)) = none := by
  decide

/-- C7 (amended): for an all-zero grid the maximum search gives `maxPass = 0`; if the
grid has at least one cell, the image loop divides by zero and no image is produced;
only a grid without cells is normalised without a division, to an image without
pixels. -/
theorem normalize_all_zero (nPass : List (List Int))
    (hzero : ∀ row ∈ nPass, ∀ n ∈ row, n = 0) :
    findMaxPass nPass = 0 ∧
    ((∃ row ∈ nPass, row ≠ []) → normalize nPass = none) ∧
    ((∀ row ∈ nPass, row = []) → normalize nPass = some nPass) := by
  have hmax : findMaxPass nPass = 0 := by
    rcases findMaxPass_eq_zero_or_mem nPass with h | ⟨row, hrow, hmem⟩
    · exact h
    · exact hzero row hrow _ hmem
  refine ⟨hmax, ?_, ?_⟩
  · intro hcell
    rw [normalize, hmax]
    exact normalizeRows_zero nPass hcell
  · intro hempty
    exact normalizeRows_of_no_cell _ nPass hempty

/-- Witness of C7 (amended) at the all-zero `4 × 4` grid. -/
theorem normalize_all_zero_witness :
    (∀ row ∈ List.replicate 4 (List.replicate 4 (0 : Int)), ∀ n ∈ row, n = 0) ∧
    (findMaxPass (List.replicate 4 (List.replicate 4 0)) = 0 ∧
     ((∃ row ∈ List.replicate 4 (List.replicate 4 (0 : Int)), row ≠ []) →
        normalize (List.replicate 4 (List.replicate 4 0)) = none) ∧
     ((∀ row ∈ List.replicate 4 (List.replicate 4 (0 : Int)), row = []) →
        normalize (List.replicate 4 (List.replicate 4 0))
          = some (List.replicate 4 (List.replicate 4 0)))) :=
  ⟨by decide, normalize_all_zero (List.replicate 4 (List.replicate 4 0)) (by decide)⟩

/-- C8, as stated, fails when `255 * maxCount` leaves the `int` range: for the
one-cell grid holding `8421505` the product `2147483775` exceeds `INT_MAX`, the
wrapped product is negative, and the cell holding the maximum gets `colorValue = -254`
and the gray byte `2`, not `255`. -/
theorem maxCell_product_overflows :
    findMaxPass [[8421505]] = 8421505 ∧
    INT_MAX < 255 * 8421505 ∧
    colorValue 8421505 (findMaxPass [[8421505]]) = some (-254) ∧
    normalize [[8421505]] = some [[2]] := by
  decide

/-- C8 (amended): for every grid whose maximum `maxPass` is positive and satisfies
`255 * maxPass ≤ INT_MAX`, the expression `255 * count / maxPass` evaluates to exactly
`255` for a cell holding `maxPass`, the normaliser produces an image, and every pixel
at the position of a cell holding `maxPass` has gray level `255`. -/
theorem maxCell_gray_255 (nPass : List (List Int))
    (hpos : 0 < findMaxPass nPass) (hfit : 255 * findMaxPass nPass ≤ INT_MAX) :
    colorValue (findMaxPass nPass) (findMaxPass nPass) = some 255 ∧
    ∃ image, normalize nPass = some image ∧
      ∀ y x, cellAt nPass y x = some (findMaxPass nPass) → cellAt image y x = some 255 := by
  have hfl : ⌊((255 * findMaxPass nPass : Int) : ℚ) / (findMaxPass nPass : ℚ)⌋ = 255 := by
    rw [floor_intCast_div_intCast _ _ hpos, Int.mul_ediv_cancel _ (ne_of_gt hpos)]
  have hgray : grayLevel (findMaxPass nPass) (findMaxPass nPass) = 255 := by
    rw [grayLevel_of_fits _ _ (le_of_lt hpos) (le_refl _) hpos hfit, hfl]
  constructor
  · rw [colorValue_of_fits _ _ (le_of_lt hpos) hfit hpos, hfl]
  · refine ⟨_, normalizeRows_of_ne_zero _ (ne_of_gt hpos) nPass, ?_⟩
    intro y x hcell
    rw [cellAt_map, hcell, Option.map_some', hgray]

/-- Witness of C8 (amended) at the grid `[[1, 3], [3, 0]]`. -/
theorem maxCell_gray_255_witness :
    0 < findMaxPass [[1, 3], [3, 0]] ∧ 255 * findMaxPass [[1, 3], [3, 0]] ≤ INT_MAX ∧
    (colorValue (findMaxPass [[1, 3], [3, 0]]) (findMaxPass [[1, 3], [3, 0]]) = some 255 ∧
     ∃ image, normalize [[1, 3], [3, 0]] = some image ∧
       ∀ y x, cellAt [[1, 3], [3, 0]] y x = some (findMaxPass [[1, 3], [3, 0]]) →
         cellAt image y x = some 255) :=
  ⟨by decide, by decide, maxCell_gray_255 [[1, 3], [3, 0]] (by decide) (by decide)⟩

/-- C9, as stated, fails when `255 * count` leaves the `int` range: in the grid
`[[10000000, 20000000]]` the first cell has `floor(255 * count / maxCount) = 127`, but
its product `2550000000` exceeds `INT_MAX` and the program computes `-87`, outside
`0..255`. -/
theorem cell_product_overflows :
    (∀ row ∈ [[(10000000 : Int), 20000000]], ∀ n ∈ row, 0 ≤ n) ∧
    findMaxPass [[10000000, 20000000]] = 20000000 ∧
    ⌊((255 * 10000000 : Int) : ℚ) / ((20000000 : Int) : ℚ)⌋ = 127 ∧
    colorValue 10000000 (findMaxPass [[10000000, 20000000]]) = some (-87) ∧
    normalize [[10000000, 20000000]] = some [[169, 40]] := by
  refine ⟨by decide, by decide, ?_, by decide, by decide⟩
  rw [Int.floor_eq_iff]
  constructor <;> norm_num

/-- C9 (amended): for every grid of non-negative counts with at least one non-zero
cell and with `255 * maxPass ≤ INT_MAX`, the value `maxPass` found by the normaliser
is the maximum cell value of the whole grid, every cell gets the gray level
`floor(255 * count / maxPass)`, which lies in `0..255`, and the image consists of
these gray levels. -/
theorem normalize_floor (nPass : List (List Int))
    (hnonneg : ∀ row ∈ nPass, ∀ n ∈ row, 0 ≤ n)
    (hnz : ∃ row ∈ nPass, ∃ n ∈ row, n ≠ 0)
    (hfit : 255 * findMaxPass nPass ≤ INT_MAX) :
    ((∃ row ∈ nPass, findMaxPass nPass ∈ row) ∧
      ∀ row ∈ nPass, ∀ n ∈ row, n ≤ findMaxPass nPass) ∧
    (∀ row ∈ nPass, ∀ n ∈ row,
      colorValue n (findMaxPass nPass)
        = some ⌊((255 * n : Int) : ℚ) / (findMaxPass nPass : ℚ)⌋ ∧
      0 ≤ ⌊((255 * n : Int) : ℚ) / (findMaxPass nPass : ℚ)⌋ ∧
      ⌊((255 * n : Int) : ℚ) / (findMaxPass nPass : ℚ)⌋ ≤ 255) ∧
    normalize nPass = some (nPass.map (fun row =>
      row.map (fun n => ⌊((255 * n : Int) : ℚ) / (findMaxPass nPass : ℚ)⌋))) := by
  have hle := le_findMaxPass nPass
  have hpos : 0 < findMaxPass nPass := by
    obtain ⟨row, hrow, n, hn, hne⟩ := hnz
    have h0 := hnonneg row hrow n hn
    have h1 := hle row hrow n hn
    omega
  have hmem : ∃ row ∈ nPass, findMaxPass nPass ∈ row := by
    rcases findMaxPass_eq_zero_or_mem nPass with h | h
    · omega
    · exact h
  refine ⟨⟨hmem, hle⟩, ?_, ?_⟩
  · intro row hrow n hn
    have h0 := hnonneg row hrow n hn
    have h1 := hle row hrow n hn
    exact ⟨colorValue_of_fits n _ h0 (by omega) hpos, floor_quotient_byte n _ h0 h1 hpos⟩
  · rw [normalize, normalizeRows_of_ne_zero _ (ne_of_gt hpos)]
    congr 1
    apply List.map_congr_left
    intro row hrow
    apply List.map_congr_left
    intro n hn
    exact grayLevel_of_fits n _ (hnonneg row hrow n hn) (hle row hrow n hn) hpos hfit

/-- Witness of C9 (amended) at the grid `[[1, 3], [2, 0]]`. -/
theorem normalize_floor_witness :
    (∀ row ∈ [[(1 : Int), 3], [2, 0]], ∀ n ∈ row, 0 ≤ n) ∧
    (∃ row ∈ [[(1 : Int), 3], [2, 0]], ∃ n ∈ row, n ≠ 0) ∧
    255 * findMaxPass [[1, 3], [2, 0]] ≤ INT_MAX ∧
    (((∃ row ∈ [[(1 : Int), 3], [2, 0]], findMaxPass [[1, 3], [2, 0]] ∈ row) ∧
      ∀ row ∈ [[(1 : Int), 3], [2, 0]], ∀ n ∈ row, n ≤ findMaxPass [[1, 3], [2, 0]]) ∧
     (∀ row ∈ [[(1 : Int), 3], [2, 0]], ∀ n ∈ row,
       colorValue n (findMaxPass [[1, 3], [2, 0]])
         = some ⌊((255 * n : Int) : ℚ) / (findMaxPass [[1, 3], [2, 0]] : ℚ)⌋ ∧
       0 ≤ ⌊((255 * n : Int) : ℚ) / (findMaxPass [[1, 3], [2, 0]] : ℚ)⌋ ∧
       ⌊((255 * n : Int) : ℚ) / (findMaxPass [[1, 3], [2, 0]] : ℚ)⌋ ≤ 255) ∧
     normalize [[1, 3], [2, 0]] = some (([[1, 3], [2, 0]] : List (List Int)).map (fun row =>
       row.map (fun n => ⌊((255 * n : Int) : ℚ) / (findMaxPass [[1, 3], [2, 0]] : ℚ)⌋)))) :=
  ⟨by decide, by decide, by decide,
   normalize_floor [[1, 3], [2, 0]] (by decide) (by decide) (by decide)⟩

/-! ## Orbit tracer: further claims -/

/-- C14 (immediately escaping candidates): for every candidate `c` of squared
magnitude above `2` and every bound `maxIter ≥ 2`, the tracer returns the one-point
sequence `[c]`. -/
theorem buddhabrotPoint_immediate_escape (c : Complex K) (maxIter : Nat)
    (hesc : 2 < c.sqMagnitude) (hM : 2 ≤ maxIter) :
    buddhabrotPoint c maxIter = [c] := by
  have hfirst : ∀ j, j < 1 → (orbitPoint c j).sqMagnitude ≤ 2 := by
    intro j hj
    have hj0 : j = 0 := by omega
    subst hj0
    rw [orbitPoint_zero, sqMagnitude_seed]
    norm_num
  rw [buddhabrotPoint_of_first_escape c maxIter 1 (by omega) hfirst
    (by rw [orbitPoint_one]; exact hesc)]
  simp [orbitPrefix, List.range_succ, orbitPoint_one]

/-- Witness of C14 at `c = (2, 2)`, `maxIter = 5`: the result is `[(2, 2)]`. -/
theorem buddhabrotPoint_immediate_escape_witness :
    2 < (⟨2, 2⟩ : Complex ℚ).sqMagnitude ∧ 2 ≤ 5 ∧
    buddhabrotPoint (⟨2, 2⟩ : Complex ℚ) 5 = [⟨2, 2⟩] :=
  ⟨by rw [sqMagnitude_two_two]; norm_num, by decide,
   buddhabrotPoint_immediate_escape ⟨2, 2⟩ 5 (by rw [sqMagnitude_two_two]; norm_num)
     (by decide)⟩

/-- C19 (stability under a larger bound): if `buddhabrotPoint c maxIter` is non-empty
and `maxIter ≤ maxIter2`, then `buddhabrotPoint c maxIter2` is the same sequence. -/
theorem buddhabrotPoint_stable (c : Complex K) (maxIter maxIter2 : Nat)
    (hle : maxIter ≤ maxIter2) (hne : buddhabrotPoint c maxIter ≠ []) :
    buddhabrotPoint c maxIter2 = buddhabrotPoint c maxIter := by
  obtain ⟨m, _, _, hsmall, hbig, hlt, heq⟩ := buddhabrotPoint_cases c maxIter
  have hm : m < maxIter := by
    rcases Nat.lt_or_ge m maxIter with h | h
    · exact h
    · exact absurd (heq (by omega)) hne
  rw [hlt hm]
  exact buddhabrotPoint_of_first_escape c maxIter2 m (by omega) hsmall (hbig hm)

/-- Witness of C19 at `c = (5/8, -1/8)`, bounds `100` and `250`. -/
theorem buddhabrotPoint_stable_witness :
    maxIter ≤ 250 ∧
    buddhabrotPoint (⟨5 / 8, -1 / 8⟩ : Complex ℚ) maxIter ≠ [] ∧
    buddhabrotPoint (⟨5 / 8, -1 / 8⟩ : Complex ℚ) 250
      = buddhabrotPoint (⟨5 / 8, -1 / 8⟩ : Complex ℚ) maxIter :=
  ⟨by decide, by rw [buddhabrotPoint_example ℚ]; simp,
   buddhabrotPoint_stable ⟨5 / 8, -1 / 8⟩ maxIter 250 (by decide)
     (by rw [buddhabrotPoint_example ℚ]; simp)⟩

/-! ## Complex arithmetic: the claim -/

/-- C18: over the reals the operations of `Complex` are those of the complex numbers:
`operator+` is componentwise addition, `operator*` has the components
`a.r*b.r - a.i*b.i` and `a.r*b.i + a.i*b.r` and is the product in `ℂ`, and
`sqMagnitude` is the squared norm `a.r^2 + a.i^2`. -/
theorem complex_operations_agree (a b : Complex ℝ) :
    ((a + b).r = a.r + b.r ∧ (a + b).i = a.i + b.i) ∧
    toComplexNumber (a + b) = toComplexNumber a + toComplexNumber b ∧
    ((a * b).r = a.r * b.r - a.i * b.i ∧ (a * b).i = a.r * b.i + a.i * b.r) ∧
    toComplexNumber (a * b) = toComplexNumber a * toComplexNumber b ∧
    a.sqMagnitude = a.r ^ 2 + a.i ^ 2 ∧
    a.sqMagnitude = Complex.normSq (toComplexNumber a) := by
  refine ⟨⟨rfl, rfl⟩, ?_, ⟨rfl, rfl⟩, ?_, ?_, ?_⟩
  · apply Complex.ext <;> simp [toComplexNumber]
  · apply Complex.ext <;> simp [toComplexNumber]
  · simp only [Complex.sqMagnitude]; ring
  · simp [Complex.sqMagnitude, toComplexNumber, Complex.normSq_apply]

/-! ## Candidate filter and accumulator: basic facts -/

theorem inMainCardioid_eq (sqrt : K → K) (c : Complex K) :
    inMainCardioid sqrt c = decide (c.r ≤ cardioidX sqrt c) := rfl

theorem inSecondCardioid_eq (c : Complex K) :
    inSecondCardioid c = decide (secondCardioidX c ≤ 1 / 16) := rfl

theorem samplePass_cons_rejected [FloorRing K] (sqrt : K → K) (lo hi : Complex K)
    (size : Int) (bound : Nat) (nPass : List (List Int)) (c : Complex K)
    (rest : List (Complex K)) (hrej : rejectedByFilter sqrt c = true) :
    samplePass sqrt lo hi size bound nPass (c :: rest)
      = samplePass sqrt lo hi size bound nPass rest := by
  simp [samplePass, hrej]

theorem samplePass_cons_accepted [FloorRing K] (sqrt : K → K) (lo hi : Complex K)
    (size : Int) (bound : Nat) (nPass g : List (List Int)) (c : Complex K)
    (rest : List (Complex K)) (hacc : rejectedByFilter sqrt c = false)
    (hg : accumulate lo hi size nPass (buddhabrotPoint c bound) = some g) :
    samplePass sqrt lo hi size bound nPass (c :: rest)
      = samplePass sqrt lo hi size bound g rest := by
  simp [samplePass, hacc, hg]

theorem inRegion_eq_false_of_outside (n lo hi : Complex K)
    (hout : n.r < lo.r ∨ hi.r < n.r ∨ n.i < lo.i ∨ hi.i < n.i) :
    inRegion n lo hi = false := by
  simp only [inRegion, decide_eq_false_iff_not, ge_iff_le]
  rintro ⟨h1, h2, h3, h4⟩
  rcases hout with h | h | h | h
  · exact absurd h4 (not_le_of_lt h)
  · exact absurd h3 (not_le_of_lt h)
  · exact absurd h2 (not_le_of_lt h)
  · exact absurd h1 (not_le_of_lt h)

theorem accumulatePoint_of_not_inRegion [FloorRing K] (lo hi : Complex K) (size : Int)
    (nPass : List (List Int)) (n : Complex K) (h : inRegion n lo hi = false) :
    accumulatePoint lo hi size nPass n = some nPass := by
  simp [accumulatePoint, h]

theorem accumulate_of_all_not_inRegion [FloorRing K] (lo hi : Complex K) (size : Int)
    (nPass : List (List Int)) (orbit : List (Complex K))
    (h : ∀ n ∈ orbit, inRegion n lo hi = false) :
    accumulate lo hi size nPass orbit = some nPass := by
  induction orbit with
  | nil => rfl
  | cons n rest ih =>
    rw [accumulate, accumulatePoint_of_not_inRegion lo hi size nPass n
      (h n (List.mem_cons_self _ _))]
    exact ih (fun m hm => h m (List.mem_cons_of_mem _ hm))

theorem sqrt_sixteenth : Real.sqrt ((0 - 1 / 4) * (0 - 1 / 4) + 0 * 0) = 1 / 4 := by
  rw [Real.sqrt_eq_iff_mul_self_eq (by norm_num) (by norm_num)]
  norm_num

/-! ## Coordinate mapper, filter and accumulator: further claims -/

/-- C11, as stated, fails through rounding: for `min = -2`, `max = 1`, `R = 17` the
coordinate one pixel unit below `max` is, in `double`, `7417693503904346 * 2^-53`; for
it the program computes the quotient `9007199254740991 * 2^-49`, just below `16`, and
returns the index `15`, not `R - 1 = 16`. -/
theorem mapper_end_point_rounds_down :
    onePixelBelowMax (-2 : ℚ) 1 17 = some (7417693503904346 / 9007199254740992) ∧
    mapperQuotient (7417693503904346 / 9007199254740992 : ℚ) (-2) 1 17
      = some (9007199254740991 / 562949953421312) ∧
    rowFromReal (7417693503904346 / 9007199254740992 : ℚ) (-2) 1 17 = some 15 ∧
    colFromImag (7417693503904346 / 9007199254740992 : ℚ) (-2) 1 17 = some 15 ∧
    (15 : Int) ≠ 17 - 1 := by
  have hrow := rowFromReal_of_quotient _ _ _ _ _ mapperQuotient_seventeen
  have htrunc : truncToInt (9007199254740991 / 562949953421312 : ℚ) = 15 := by
    rw [truncToInt_of_nonneg _ (by norm_num), Int.floor_eq_iff]
    constructor <;> norm_num
  rw [castToInt_of_fits _ (by rw [htrunc]; decide), htrunc] at hrow
  exact ⟨onePixelBelowMax_seventeen, mapperQuotient_seventeen, hrow,
    by rw [colFromImag_eq_rowFromReal]; exact hrow, by decide⟩

/-- C11 (amended): for bounds `lo < hi` with a non-zero computed divisor and every
resolution `R ≥ 1`, the lower bound `lo` is mapped to pixel `0`.  The spec's formula,
evaluated exactly, gives `0` at `lo` and `R - 1` at `hi - (hi - lo) / R`; the program
evaluates it in `double` and agrees for `min = -2`, `max = 1`, `R = 1000`, where the
coordinate one pixel unit below `max` is mapped to `999`. -/
theorem mapper_end_points [FloorRing K] (lo hi : K) (R : Int) (d3 : K)
    (hlt : lo < hi) (hR : 1 ≤ R) (hd : roundDouble (hi - lo) = some d3) (hd0 : d3 ≠ 0) :
    (rowFromReal lo lo hi R = some 0 ∧ colFromImag lo lo hi R = some 0) ∧
    (specIndex lo lo hi R = 0 ∧ specIndex (hi - (hi - lo) / (R : K)) lo hi R = R - 1) ∧
    (onePixelBelowMax (-2 : ℚ) 1 1000 = some (8980177656976769 / 9007199254740992) ∧
      rowFromReal (8980177656976769 / 9007199254740992 : ℚ) (-2) 1 1000 = some 999 ∧
      colFromImag (8980177656976769 / 9007199254740992 : ℚ) (-2) 1 1000 = some 999) := by
  have hdne : hi - lo ≠ 0 := ne_of_gt (sub_pos.mpr hlt)
  have hR0 : (R : K) ≠ 0 := by
    have : (0 : K) < (R : K) := by exact_mod_cast (lt_of_lt_of_le Int.zero_lt_one hR)
    exact ne_of_gt this
  have h0 := rowFromReal_at_min lo hi R d3 hd hd0
  have hq1 : (hi - (hi - lo) / (R : K) - lo) * (R : K) / (hi - lo) = ((R - 1 : Int) : K) := by
    push_cast
    field_simp
    ring
  refine ⟨⟨h0, by rw [colFromImag_eq_rowFromReal]; exact h0⟩, ⟨?_, ?_⟩,
    onePixelBelowMax_thousand, rowFromReal_thousand,
    by rw [colFromImag_eq_rowFromReal]; exact rowFromReal_thousand⟩
  · simp [specIndex]
  · rw [specIndex, hq1, Int.floor_intCast]

/-- Witness of C11 (amended) at `min = -2`, `max = 1`, `R = 1000`: the pixels are `0`
and `999`. -/
theorem mapper_end_points_witness :
    (-2 : ℚ) < 1 ∧ (1 : Int) ≤ 1000 ∧ roundDouble ((1 : ℚ) - -2) = some 3 ∧ (3 : ℚ) ≠ 0 ∧
    ((rowFromReal (-2 : ℚ) (-2) 1 1000 = some 0 ∧ colFromImag (-2 : ℚ) (-2) 1 1000 = some 0) ∧
     (specIndex (-2 : ℚ) (-2) 1 1000 = 0 ∧
       specIndex ((1 : ℚ) - (1 - -2) / ((1000 : Int) : ℚ)) (-2) 1 1000 = 1000 - 1) ∧
     (onePixelBelowMax (-2 : ℚ) 1 1000 = some (8980177656976769 / 9007199254740992) ∧
       rowFromReal (8980177656976769 / 9007199254740992 : ℚ) (-2) 1 1000 = some 999 ∧
       colFromImag (8980177656976769 / 9007199254740992 : ℚ) (-2) 1 1000 = some 999)) :=
  ⟨by norm_num, by decide, roundDouble_three_sub, by norm_num,
   mapper_end_points (-2 : ℚ) 1 1000 3 (by norm_num) (by decide) roundDouble_three_sub
     (by norm_num)⟩

/-- C13 (out-of-region points are skipped): an orbit point with a real or imaginary
part outside `[min, max]` leaves the grid as it is, and an orbit all of whose points
lie outside the region leaves the whole grid unchanged, with a defined result. -/
theorem accumulate_skips_outside [FloorRing K] (lo hi : Complex K) (size : Int)
    (nPass : List (List Int)) (orbit : List (Complex K))
    (hout : ∀ n ∈ orbit, n.r < lo.r ∨ hi.r < n.r ∨ n.i < lo.i ∨ hi.i < n.i) :
    (∀ n ∈ orbit, accumulatePoint lo hi size nPass n = some nPass) ∧
    accumulate lo hi size nPass orbit = some nPass := by
  constructor
  · intro n hn
    exact accumulatePoint_of_not_inRegion lo hi size nPass n
      (inRegion_eq_false_of_outside n lo hi (hout n hn))
  · exact accumulate_of_all_not_inRegion lo hi size nPass orbit
      (fun n hn => inRegion_eq_false_of_outside n lo hi (hout n hn))

/-- Witness of C13: the orbit `[(2, 2)]` of the candidate `(2, 2)` lies outside the
program's region. -/
theorem accumulate_skips_outside_witness :
    (∀ n ∈ buddhabrotPoint (⟨2, 2⟩ : Complex ℚ) 5,
      n.r < (minimum : Complex ℚ).r ∨ (maximum : Complex ℚ).r < n.r ∨
      n.i < (minimum : Complex ℚ).i ∨ (maximum : Complex ℚ).i < n.i) ∧
    ((∀ n ∈ buddhabrotPoint (⟨2, 2⟩ : Complex ℚ) 5,
       accumulatePoint minimum maximum 4 (zeroGrid 4) n = some (zeroGrid 4)) ∧
     accumulate minimum maximum 4 (zeroGrid 4) (buddhabrotPoint (⟨2, 2⟩ : Complex ℚ) 5)
       = some (zeroGrid 4)) :=
  ⟨by rw [buddhabrotPoint_two_two_five]; simp [minimum, maximum],
   accumulate_skips_outside minimum maximum 4 (zeroGrid 4)
     (buddhabrotPoint (⟨2, 2⟩ : Complex ℚ) 5)
     (by rw [buddhabrotPoint_two_two_five]; simp [minimum, maximum])⟩

/-- C15 (the filter tests are inclusive): a candidate with `c.r` exactly equal to the
value `x` of the main-cardioid test, or with `(c.r + 1)^2 + c.i^2` exactly `1/16`, is
rejected, and the sample loop goes on to the next candidate without tracing an orbit
or touching the grid. -/
theorem filter_boundary_rejected [FloorRing K] (sqrt : K → K) (c : Complex K)
    (hb : c.r = cardioidX sqrt c ∨ secondCardioidX c = 1 / 16) :
    (c.r = cardioidX sqrt c → inMainCardioid sqrt c = true) ∧
    (secondCardioidX c = 1 / 16 → inSecondCardioid c = true) ∧
    rejectedByFilter sqrt c = true ∧
    ∀ (lo hi : Complex K) (size : Int) (bound : Nat) (nPass : List (List Int))
      (rest : List (Complex K)),
      samplePass sqrt lo hi size bound nPass (c :: rest)
        = samplePass sqrt lo hi size bound nPass rest := by
  have h1 : c.r = cardioidX sqrt c → inMainCardioid sqrt c = true := by
    intro h
    rw [inMainCardioid_eq, decide_eq_true_eq]
    exact le_of_eq h
  have h2 : secondCardioidX c = 1 / 16 → inSecondCardioid c = true := by
    intro h
    rw [inSecondCardioid_eq, decide_eq_true_eq]
    exact le_of_eq h
  have hrej : rejectedByFilter sqrt c = true := by
    rcases hb with h | h
    · simp [rejectedByFilter, h1 h]
    · simp [rejectedByFilter, h2 h]
  exact ⟨h1, h2, hrej, fun lo hi size bound nPass rest =>
    samplePass_cons_rejected sqrt lo hi size bound nPass c rest hrej⟩

/-- Witness of C15 at `c = (-3/4, 0)`, which lies on the boundary of both tests. -/
theorem filter_boundary_rejected_witness :
    (⟨-3 / 4, 0⟩ : Complex ℝ).r = cardioidX Real.sqrt ⟨-3 / 4, 0⟩ ∧
    secondCardioidX (⟨-3 / 4, 0⟩ : Complex ℝ) = 1 / 16 ∧
    (((⟨-3 / 4, 0⟩ : Complex ℝ).r = cardioidX Real.sqrt ⟨-3 / 4, 0⟩ →
        inMainCardioid Real.sqrt (⟨-3 / 4, 0⟩ : Complex ℝ) = true) ∧
     (secondCardioidX (⟨-3 / 4, 0⟩ : Complex ℝ) = 1 / 16 →
        inSecondCardioid (⟨-3 / 4, 0⟩ : Complex ℝ) = true) ∧
     rejectedByFilter Real.sqrt (⟨-3 / 4, 0⟩ : Complex ℝ) = true ∧
     ∀ (lo hi : Complex ℝ) (size : Int) (bound : Nat) (nPass : List (List Int))
       (rest : List (Complex ℝ)),
       samplePass Real.sqrt lo hi size bound nPass (⟨-3 / 4, 0⟩ :: rest)
         = samplePass Real.sqrt lo hi size bound nPass rest) :=
  ⟨by norm_num [cardioidX, cardioidP], by norm_num [secondCardioidX],
   filter_boundary_rejected Real.sqrt ⟨-3 / 4, 0⟩
     (Or.inr (by norm_num [secondCardioidX]))⟩

/-- C16, as stated, fails in the value of `x`: for `c = (0, 0)` the test computes
`p = 1/4` and `x = p - 2 p p + 1/4 = 3/8`, not `1/4`. -/
theorem cardioid_x_at_origin :
    cardioidP Real.sqrt (⟨0, 0⟩ : Complex ℝ) = 1 / 4 ∧
    cardioidX Real.sqrt (⟨0, 0⟩ : Complex ℝ) = 3 / 8 ∧
    cardioidX Real.sqrt (⟨0, 0⟩ : Complex ℝ) ≠ 1 / 4 := by
  have hp : cardioidP Real.sqrt (⟨0, 0⟩ : Complex ℝ) = 1 / 4 := sqrt_sixteenth
  have hx : cardioidX Real.sqrt (⟨0, 0⟩ : Complex ℝ) = 3 / 8 := by
    rw [cardioidX, hp]; norm_num
  refine ⟨hp, hx, ?_⟩
  rw [hx]; norm_num

/-- C16 (amended): for the single sample `c = (0, 0)` the cardioid test computes
`p = 1/4` and `x = 3/8` and rejects `c` because `c.r = 0 ≤ 3/8`; with the region
`[(-2, -1.5), (1, 1.5)]`, resolution `4` and bound `1` the pass leaves the `4 × 4`
histogram all zero. -/
theorem origin_sample_rejected :
    cardioidP Real.sqrt (⟨0, 0⟩ : Complex ℝ) = 1 / 4 ∧
    cardioidX Real.sqrt (⟨0, 0⟩ : Complex ℝ) = 3 / 8 ∧
    (⟨0, 0⟩ : Complex ℝ).r ≤ cardioidX Real.sqrt (⟨0, 0⟩ : Complex ℝ) ∧
    inMainCardioid Real.sqrt (⟨0, 0⟩ : Complex ℝ) = true ∧
    samplePass Real.sqrt minimum maximum 4 1 (zeroGrid 4) [(⟨0, 0⟩ : Complex ℝ)]
      = some (zeroGrid 4) ∧
    ∀ row ∈ zeroGrid 4, ∀ v ∈ row, v = 0 := by
  have hp : cardioidP Real.sqrt (⟨0, 0⟩ : Complex ℝ) = 1 / 4 := sqrt_sixteenth
  have hx : cardioidX Real.sqrt (⟨0, 0⟩ : Complex ℝ) = 3 / 8 := by
    rw [cardioidX, hp]; norm_num
  have hle : (⟨0, 0⟩ : Complex ℝ).r ≤ cardioidX Real.sqrt (⟨0, 0⟩ : Complex ℝ) := by
    rw [hx]; norm_num
  have hin : inMainCardioid Real.sqrt (⟨0, 0⟩ : Complex ℝ) = true := by
    rw [inMainCardioid_eq, decide_eq_true_eq]; exact hle
  have hrej : rejectedByFilter Real.sqrt (⟨0, 0⟩ : Complex ℝ) = true := by
    simp [rejectedByFilter, hin]
  refine ⟨hp, hx, hle, hin, ?_, by decide⟩
  rw [samplePass_cons_rejected _ _ _ _ _ _ _ _ hrej]
  rfl

/-! ## Normaliser: order of the gray levels -/

/-- C20, as stated, fails when `255 * count` leaves the `int` range: in the grid
`[[8421504, 8421505]]` the first cell has the smaller count but the larger gray level
(`254` against `2`; as `int` value `254` against `-254`). -/
theorem gray_levels_out_of_order :
    (∀ row ∈ [[(8421504 : Int), 8421505]], ∀ n ∈ row, 0 ≤ n) ∧
    0 < findMaxPass [[8421504, 8421505]] ∧
    (8421504 : Int) ≤ 8421505 ∧
    colorValue 8421504 (findMaxPass [[8421504, 8421505]]) = some 254 ∧
    colorValue 8421505 (findMaxPass [[8421504, 8421505]]) = some (-254) ∧
    normalize [[8421504, 8421505]] = some [[254, 2]] ∧
    ¬ ((254 : Int) ≤ 2) := by
  decide

/-- C20 (amended): for every grid of non-negative counts whose maximum `maxPass` is
positive and satisfies `255 * maxPass ≤ INT_MAX`, the image consists of the gray levels
of the cells, a cell with the smaller count never has the larger gray level, and a
cell with count `0` has gray level `0`. -/
theorem normalize_monotone (nPass : List (List Int))
    (hnonneg : ∀ row ∈ nPass, ∀ n ∈ row, 0 ≤ n)
    (hpos : 0 < findMaxPass nPass) (hfit : 255 * findMaxPass nPass ≤ INT_MAX) :
    normalize nPass
      = some (nPass.map (fun row => row.map (grayLevel (findMaxPass nPass)))) ∧
    (∀ rowA ∈ nPass, ∀ a ∈ rowA, ∀ rowB ∈ nPass, ∀ b ∈ rowB, a ≤ b →
      grayLevel (findMaxPass nPass) a ≤ grayLevel (findMaxPass nPass) b) ∧
    colorValue 0 (findMaxPass nPass) = some 0 ∧
    grayLevel (findMaxPass nPass) 0 = 0 := by
  have hle := le_findMaxPass nPass
  refine ⟨normalizeRows_of_ne_zero _ (ne_of_gt hpos) nPass, ?_, ?_, ?_⟩
  · intro rowA hA a ha rowB hB b hb hab
    rw [grayLevel_of_fits a _ (hnonneg rowA hA a ha) (hle rowA hA a ha) hpos hfit,
      grayLevel_of_fits b _ (hnonneg rowB hB b hb) (hle rowB hB b hb) hpos hfit,
      floor_intCast_div_intCast _ _ hpos, floor_intCast_div_intCast _ _ hpos]
    exact Int.ediv_le_ediv hpos (by omega)
  · rw [colorValue, if_neg (ne_of_gt hpos)]
    simp [wrapInt32]
  · simp [grayLevel, wrapInt32, toUint8]

/-- Witness of C20 (amended) at the grid `[[1, 3], [2, 0]]`. -/
theorem normalize_monotone_witness :
    (∀ row ∈ [[(1 : Int), 3], [2, 0]], ∀ n ∈ row, 0 ≤ n) ∧
    0 < findMaxPass [[1, 3], [2, 0]] ∧
    255 * findMaxPass [[1, 3], [2, 0]] ≤ INT_MAX ∧
    (normalize [[1, 3], [2, 0]]
       = some (([[1, 3], [2, 0]] : List (List Int)).map (fun row =>
           row.map (grayLevel (findMaxPass [[1, 3], [2, 0]])))) ∧
     (∀ rowA ∈ [[(1 : Int), 3], [2, 0]], ∀ a ∈ rowA,
       ∀ rowB ∈ [[(1 : Int), 3], [2, 0]], ∀ b ∈ rowB, a ≤ b →
       grayLevel (findMaxPass [[1, 3], [2, 0]]) a
         ≤ grayLevel (findMaxPass [[1, 3], [2, 0]]) b) ∧
     colorValue 0 (findMaxPass [[1, 3], [2, 0]]) = some 0 ∧
     grayLevel (findMaxPass [[1, 3], [2, 0]]) 0 = 0) :=
  ⟨by decide, by decide, by decide,
   normalize_monotone [[1, 3], [2, 0]] (by decide) (by decide) (by decide)⟩

/-! ## The accumulation loop -/

theorem sum_set_of_getElem? (l : List Int) :
    ∀ (i : Nat) (v w : Int), l[i]? = some v → (l.set i w).sum = l.sum - v + w := by
  induction l with
  | nil => intro i v w h; simp at h
  | cons a l ih =>
    intro i v w h
    cases i with
    | zero =>
      simp only [List.getElem?_cons_zero, Option.some.injEq] at h
      subst h
      simp only [List.set_cons_zero, List.sum_cons]
      omega
    | succ i =>
      simp only [List.getElem?_cons_succ] at h
      simp only [List.set_cons_succ, List.sum_cons, ih i v w h]
      omega

theorem gridSum_set (g : List (List Int)) (i : Nat) (cells cells2 : List Int)
    (h : g[i]? = some cells) :
    gridSum (g.set i cells2) = gridSum g - cells.sum + cells2.sum := by
  unfold gridSum
  rw [List.map_set]
  exact sum_set_of_getElem? _ i _ _ (by rw [List.getElem?_map, h]; rfl)

theorem CellsAtMost.mono (g : List (List Int)) (top top2 : Int) (h : CellsAtMost g top)
    (hle : top ≤ top2) : CellsAtMost g top2 :=
  fun row hrow v hv => ⟨(h row hrow v hv).1, le_trans (h row hrow v hv).2 hle⟩

/-- The increment of a cell at valid indices: the result is defined, the sum of the
grid grows by one, and shape and cell bounds are kept. -/
theorem incrementCell_of_valid (g : List (List Int)) (size top row col : Int)
    (hsq : IsSquareGrid g size) (hcells : CellsAtMost g top) (htop : top < INT_MAX)
    (hrow : 0 ≤ row ∧ row < size) (hcol : 0 ≤ col ∧ col < size) :
    ∃ g2, incrementCell g row col = some g2 ∧ gridSum g2 = gridSum g + 1 ∧
      IsSquareGrid g2 size ∧ CellsAtMost g2 (top + 1) := by
  have hr : row.toNat < g.length := by
    have := hsq.1
    omega
  have hgr : g[row.toNat]? = some g[row.toNat] := List.getElem?_eq_getElem hr
  have hmem : g[row.toNat] ∈ g := List.getElem_mem hr
  have hlen : ((g[row.toNat]).length : Int) = size := hsq.2 _ hmem
  have hc : col.toNat < (g[row.toNat]).length := by omega
  have hgc : (g[row.toNat])[col.toNat]? = some (g[row.toNat])[col.toNat] :=
    List.getElem?_eq_getElem hc
  have hvmem : (g[row.toNat])[col.toNat] ∈ g[row.toNat] := List.getElem_mem hc
  have hv := hcells _ hmem _ hvmem
  have hwrap : wrapInt32 ((g[row.toNat])[col.toNat] + 1) = (g[row.toNat])[col.toNat] + 1 :=
    wrapInt32_of_fits _ ⟨by have := hv.1; omega, by have := hv.2; omega⟩
  refine ⟨g.set row.toNat ((g[row.toNat]).set col.toNat ((g[row.toNat])[col.toNat] + 1)),
    ?_, ?_, ?_, ?_⟩
  · simp only [incrementCell, if_pos (And.intro hrow.1 hcol.1), hgr, hgc, hwrap]
  · rw [gridSum_set g _ _ _ hgr, sum_set_of_getElem? _ _ _ _ hgc]
    omega
  · refine ⟨by rw [List.length_set]; exact hsq.1, ?_⟩
    intro r hrmem
    rcases List.mem_or_eq_of_mem_set hrmem with h | h
    · exact hsq.2 r h
    · rw [h, List.length_set]; exact hlen
  · intro r hrmem v hvm
    rcases List.mem_or_eq_of_mem_set hrmem with h | h
    · have := hcells r h v hvm
      exact ⟨this.1, by omega⟩
    · rw [h] at hvm
      rcases List.mem_or_eq_of_mem_set hvm with h2 | h2
      · have := hcells _ hmem v h2
        exact ⟨this.1, by omega⟩
      · rw [h2]
        exact ⟨by have := hv.1; omega, by have := hv.2; omega⟩

theorem inRegion_eq_true_iff (n lo hi : Complex K) :
    inRegion n lo hi = true ↔ (lo.r ≤ n.r ∧ n.r ≤ hi.r) ∧ (lo.i ≤ n.i ∧ n.i ≤ hi.i) := by
  simp only [inRegion, decide_eq_true_eq, ge_iff_le]
  constructor
  · rintro ⟨h1, h2, h3, h4⟩
    exact ⟨⟨h4, h3⟩, ⟨h2, h1⟩⟩
  · rintro ⟨⟨h4, h3⟩, ⟨h2, h1⟩⟩
    exact ⟨h1, h2, h3, h4⟩

/-- The loop body for a point that passes the range check and is mapped to a row and a
column below `size`. -/
theorem accumulatePoint_of_inside [FloorRing K] (lo hi : Complex K) (size top : Int)
    (g : List (List Int)) (n : Complex K)
    (hr : lo.r < hi.r) (him : lo.i < hi.i) (hsize : 0 < size)
    (hsq : IsSquareGrid g size) (hcells : CellsAtMost g top) (htop : top < INT_MAX)
    (hin : inRegion n lo hi = true) (hmap : MapsBelow lo hi size n) :
    ∃ g2, accumulatePoint lo hi size g n = some g2 ∧ gridSum g2 = gridSum g + 1 ∧
      IsSquareGrid g2 size ∧ CellsAtMost g2 (top + 1) := by
  obtain ⟨⟨hr1, _⟩, ⟨hi1, _⟩⟩ := (inRegion_eq_true_iff n lo hi).mp hin
  obtain ⟨row, col, hrow, hrowlt, hcol, hcollt⟩ := hmap
  have hrow0 : 0 ≤ row := rowFromReal_nonneg n.r lo.r hi.r size row hr hsize hr1 hrow
  have hcol0 : 0 ≤ col :=
    rowFromReal_nonneg n.i lo.i hi.i size col him hsize hi1
      (by rw [← colFromImag_eq_rowFromReal]; exact hcol)
  obtain ⟨g2, hg2, hrest⟩ := incrementCell_of_valid g size top row col hsq hcells htop
    ⟨hrow0, hrowlt⟩ ⟨hcol0, hcollt⟩
  refine ⟨g2, ?_, hrest⟩
  simp only [accumulatePoint, hin, if_true, hrow, hcol, hg2]

theorem inRegionCount_nil (lo hi : Complex K) : inRegionCount lo hi [] = 0 := rfl

theorem inRegionCount_cons (lo hi n : Complex K) (rest : List (Complex K)) :
    inRegionCount lo hi (n :: rest)
      = (if inRegion n lo hi = true then 1 else 0) + inRegionCount lo hi rest := by
  unfold inRegionCount
  rw [List.filter_cons]
  split
  · rw [List.length_cons]; omega
  · omega

/-- The accumulation loop over an orbit all of whose in-region points are mapped below
`size`: the result is defined and the sum of the grid grows by the number of in-region
points. -/
theorem accumulate_sum [FloorRing K] (lo hi : Complex K) (size : Int)
    (hr : lo.r < hi.r) (him : lo.i < hi.i) (hsize : 0 < size)
    (orbit : List (Complex K)) :
    ∀ (g : List (List Int)) (top : Int), IsSquareGrid g size → CellsAtMost g top →
      top + (inRegionCount lo hi orbit : Int) ≤ INT_MAX →
      (∀ n ∈ orbit, inRegion n lo hi = true → MapsBelow lo hi size n) →
      ∃ g2, accumulate lo hi size g orbit = some g2 ∧
        gridSum g2 = gridSum g + (inRegionCount lo hi orbit : Int) ∧
        IsSquareGrid g2 size ∧ CellsAtMost g2 (top + (inRegionCount lo hi orbit : Int)) := by
  induction orbit with
  | nil =>
    intro g top hsq hcells _ _
    refine ⟨g, rfl, ?_, hsq, ?_⟩
    · simp [inRegionCount_nil]
    · simpa [inRegionCount_nil] using hcells
  | cons n rest ih =>
    intro g top hsq hcells hbound hmap
    have hrest : ∀ m ∈ rest, inRegion m lo hi = true → MapsBelow lo hi size m :=
      fun m hm => hmap m (List.mem_cons_of_mem _ hm)
    rw [inRegionCount_cons] at hbound ⊢
    by_cases hin : inRegion n lo hi = true
    · rw [if_pos hin] at hbound ⊢
      obtain ⟨g1, hg1, hsum1, hsq1, hcells1⟩ :=
        accumulatePoint_of_inside lo hi size top g n hr him hsize hsq hcells
          (by push_cast at hbound; omega) hin (hmap n (List.mem_cons_self _ _) hin)
      obtain ⟨g2, hg2, hsum2, hsq2, hcells2⟩ :=
        ih g1 (top + 1) hsq1 hcells1 (by push_cast at hbound ⊢; omega) hrest
      refine ⟨g2, ?_, ?_, hsq2, ?_⟩
      · simp only [accumulate, hg1, hg2]
      · rw [hsum2, hsum1]; push_cast; omega
      · refine CellsAtMost.mono g2 _ _ hcells2 ?_
        push_cast; omega
    · rw [if_neg hin] at hbound ⊢
      have hfalse : inRegion n lo hi = false := by simpa using hin
      obtain ⟨g2, hg2, hsum2, hsq2, hcells2⟩ :=
        ih g top hsq hcells (by push_cast at hbound ⊢; omega) hrest
      refine ⟨g2, ?_, ?_, hsq2, ?_⟩
      · simp only [accumulate, accumulatePoint_of_not_inRegion lo hi size g n hfalse, hg2]
      · rw [hsum2]; push_cast; omega
      · refine CellsAtMost.mono g2 _ _ hcells2 ?_
        push_cast; omega

theorem passCount_nil (sqrt : K → K) (lo hi : Complex K) (bound : Nat) :
    passCount sqrt lo hi bound [] = 0 := rfl

theorem passCount_cons (sqrt : K → K) (lo hi : Complex K) (bound : Nat) (c : Complex K)
    (rest : List (Complex K)) :
    passCount sqrt lo hi bound (c :: rest)
      = (if rejectedByFilter sqrt c = true then 0
          else inRegionCount lo hi (buddhabrotPoint c bound))
        + passCount sqrt lo hi bound rest := rfl

/-- The sample loop over candidates all of whose in-region orbit points are mapped
below `size`: the result is defined and the sum of the grid grows by the number of
in-region orbit points of the candidates that pass the filter. -/
theorem samplePass_sum [FloorRing K] (sqrt : K → K) (lo hi : Complex K) (size : Int)
    (bound : Nat) (hr : lo.r < hi.r) (him : lo.i < hi.i) (hsize : 0 < size)
    (samples : List (Complex K)) :
    ∀ (g : List (List Int)) (top : Int), IsSquareGrid g size → CellsAtMost g top →
      top + (passCount sqrt lo hi bound samples : Int) ≤ INT_MAX →
      (∀ c ∈ samples, rejectedByFilter sqrt c = false →
        ∀ n ∈ buddhabrotPoint c bound, inRegion n lo hi = true → MapsBelow lo hi size n) →
      ∃ g2, samplePass sqrt lo hi size bound g samples = some g2 ∧
        gridSum g2 = gridSum g + (passCount sqrt lo hi bound samples : Int) ∧
        IsSquareGrid g2 size ∧
        CellsAtMost g2 (top + (passCount sqrt lo hi bound samples : Int)) := by
  induction samples with
  | nil =>
    intro g top hsq hcells _ _
    refine ⟨g, rfl, ?_, hsq, ?_⟩
    · simp [passCount_nil]
    · simpa [passCount_nil] using hcells
  | cons c rest ih =>
    intro g top hsq hcells hbound hmap
    have hrest : ∀ d ∈ rest, rejectedByFilter sqrt d = false →
        ∀ n ∈ buddhabrotPoint d bound, inRegion n lo hi = true → MapsBelow lo hi size n :=
      fun d hd => hmap d (List.mem_cons_of_mem _ hd)
    rw [passCount_cons] at hbound ⊢
    by_cases hrej : rejectedByFilter sqrt c = true
    · rw [if_pos hrej] at hbound ⊢
      obtain ⟨g2, hg2, hsum2, hsq2, hcells2⟩ :=
        ih g top hsq hcells (by push_cast at hbound ⊢; omega) hrest
      refine ⟨g2, ?_, ?_, hsq2, ?_⟩
      · rw [samplePass_cons_rejected sqrt lo hi size bound g c rest hrej, hg2]
      · rw [hsum2]; push_cast; omega
      · refine CellsAtMost.mono g2 _ _ hcells2 ?_
        push_cast; omega
    · rw [if_neg hrej] at hbound ⊢
      have hacc : rejectedByFilter sqrt c = false := by simpa using hrej
      obtain ⟨g1, hg1, hsum1, hsq1, hcells1⟩ :=
        accumulate_sum lo hi size hr him hsize (buddhabrotPoint c bound) g top hsq
          hcells (by push_cast at hbound ⊢; omega) (hmap c (List.mem_cons_self _ _) hacc)
      obtain ⟨g2, hg2, hsum2, hsq2, hcells2⟩ :=
        ih g1 _ hsq1 hcells1 (by push_cast at hbound ⊢; omega) hrest
      refine ⟨g2, ?_, ?_, hsq2, ?_⟩
      · rw [samplePass_cons_accepted sqrt lo hi size bound g g1 c rest hacc hg1, hg2]
      · rw [hsum2, hsum1]; push_cast; omega
      · refine CellsAtMost.mono g2 _ _ hcells2 ?_
        push_cast; omega

theorem zeroGrid_isSquareGrid (size : Nat) : IsSquareGrid (zeroGrid size) size := by
  constructor
  · simp [zeroGrid]
  · intro row hrow
    have h := List.eq_of_mem_replicate hrow
    simp [h]

theorem zeroGrid_cellsAtMost (size : Nat) : CellsAtMost (zeroGrid size) 0 := by
  intro row hrow v hv
  have h := List.eq_of_mem_replicate hrow
  rw [h] at hv
  have hv0 := List.eq_of_mem_replicate hv
  rw [hv0]
  exact ⟨by decide, le_refl 0⟩

theorem gridSum_zeroGrid (size : Nat) : gridSum (zeroGrid size) = 0 := by
  simp [gridSum, zeroGrid]

/-- The range check of the program's region on the points `(-2, 1)` and `(2, 2)`. -/
theorem inRegion_examples :
    inRegion (⟨-2, 1⟩ : Complex ℝ) minimum maximum = true ∧
    inRegion (⟨2, 2⟩ : Complex ℝ) minimum maximum = false := by
  constructor
  · simp only [inRegion, minimum, maximum, decide_eq_true_eq]
    norm_num
  · simp only [inRegion, minimum, maximum, decide_eq_false_iff_not]
    norm_num

theorem inRegionCount_examples :
    inRegionCount (minimum : Complex ℝ) maximum [⟨-2, 1⟩, ⟨2, 2⟩] = 1 := by
  rw [inRegionCount_cons, if_pos inRegion_examples.1, inRegionCount_cons,
    if_neg (by rw [inRegion_examples.2]; decide), inRegionCount_nil]

/-! ## Histogram accumulator: the count invariant -/

/-- In the program's configuration (region `[(-2, -1.5), (1, 1.5)]`, resolution `1000`)
every point that passes the range check and lies at least `2^-51` below the upper
bound on both axes is mapped to a row and a column below the resolution. -/
theorem mapsBelow_of_below_edge [FloorRing K] (n : Complex K)
    (hin : inRegion n minimum maximum = true)
    (hre : n.r ≤ 1 - (2 : K) ^ (-51 : Int)) (him : n.i ≤ 3 / 2 - (2 : K) ^ (-51 : Int)) :
    MapsBelow minimum maximum winSize n := by
  have hpow : (2 : K) ^ (-51 : Int) = 1 / 2251799813685248 := by norm_num
  rw [hpow] at hre him
  obtain ⟨⟨hr1, _⟩, ⟨hi1, _⟩⟩ := (inRegion_eq_true_iff n minimum maximum).mp hin
  simp only [minimum, maximum] at hr1 hi1
  obtain ⟨row, hrow, _, hrlt⟩ := rowFromReal_lt_thousand n.r (-2) 1 (by norm_num) hr1 hre
  obtain ⟨col, hcol, _, hclt⟩ :=
    rowFromReal_lt_thousand n.i (-3 / 2) (3 / 2) (by norm_num) hi1 him
  exact ⟨row, col, hrow, hrlt, hcol, hclt⟩

/-- C12, as stated, fails for a starting grid with a cell at `INT_MAX`.  The orbit of
the candidate `(-2, 1)` is `[(-2, 1)]`; in the program's region with resolution `4` the
point passes the range check and is mapped to row `0`, column `3` (below the
resolution); incrementing the cell `2147483647` leaves the `int` range, and the sum of
the grid does not grow by one. -/
theorem accumulate_cell_overflows :
    buddhabrotPoint (⟨-2, 1⟩ : Complex ℚ) 5 = [⟨-2, 1⟩] ∧
    IsSquareGrid [[0, 0, 0, 2147483647], [0, 0, 0, 0], [0, 0, 0, 0], [0, 0, 0, 0]] 4 ∧
    inRegionCount (minimum : Complex ℚ) maximum (buddhabrotPoint (⟨-2, 1⟩ : Complex ℚ) 5) = 1 ∧
    accumulate (minimum : Complex ℚ) maximum 4
        [[0, 0, 0, 2147483647], [0, 0, 0, 0], [0, 0, 0, 0], [0, 0, 0, 0]]
        (buddhabrotPoint (⟨-2, 1⟩ : Complex ℚ) 5)
      = some [[0, 0, 0, -2147483648], [0, 0, 0, 0], [0, 0, 0, 0], [0, 0, 0, 0]] ∧
    gridSum [[0, 0, 0, -2147483648], [0, 0, 0, 0], [0, 0, 0, 0], [0, 0, 0, 0]]
      ≠ gridSum [[0, 0, 0, 2147483647], [0, 0, 0, 0], [0, 0, 0, 0], [0, 0, 0, 0]] + 1 := by
  have horbit : buddhabrotPoint (⟨-2, 1⟩ : Complex ℚ) 5 = [⟨-2, 1⟩] := by
    have hfirst : ∀ j, j < 1 → (orbitPoint (⟨-2, 1⟩ : Complex ℚ) j).sqMagnitude ≤ 2 := by
      intro j hj
      have hj0 : j = 0 := by omega
      subst hj0
      rw [orbitPoint_zero, sqMagnitude_seed]
      norm_num
    rw [buddhabrotPoint_of_first_escape _ 5 1 (by decide) hfirst
      (by rw [orbitPoint_one]; norm_num [Complex.sqMagnitude])]
    simp [orbitPrefix, List.range_succ, orbitPoint_one]
  have hin : inRegion (⟨-2, 1⟩ : Complex ℚ) minimum maximum = true := by
    simp only [inRegion, minimum, maximum, decide_eq_true_eq]
    norm_num
  have hrow := rowFromReal_corner_example ℚ
  have hcol := colFromImag_one_example ℚ
  refine ⟨horbit, by unfold IsSquareGrid; decide, ?_, ?_, by decide⟩
  · rw [horbit, inRegionCount_cons, if_pos hin, inRegionCount_nil]
  · rw [horbit]
    simp only [accumulate, accumulatePoint, hin, if_true, hrow, hcol]
    decide

/-- C12 (amended): for a region with `min < max` on both axes, a resolution `size > 0`
and a `size × size` starting grid with cells of at most `top`: if every orbit point that
passes the range check is mapped by `rowFromReal` and `colFromImag` to indices below
`size`, and `top` plus the number of in-region points stays within `INT_MAX`, the
accumulation loop has a defined result and the sum of all cells is the sum before plus
the number of orbit points with both parts in `[min, max]`; under the same conditions a
whole pass from the all-zero grid ends with a grid total equal to the number of
in-region orbit points of all candidates that pass the filter.  In the program's
configuration (region `[(-2, -1.5), (1, 1.5)]`, resolution `1000`) the condition on the
indices holds for every orbit whose in-range points lie at least `2^-51` below the
upper bound on both axes. -/
theorem accumulation_count [FloorRing K] (sqrt : K → K) (lo hi : Complex K) (size : Int)
    (bound : Nat) (nPass : List (List Int)) (top : Int)
    (hr : lo.r < hi.r) (him : lo.i < hi.i) (hsize : 0 < size)
    (hsq : IsSquareGrid nPass size) (hcells : CellsAtMost nPass top) :
    (∀ orbit : List (Complex K),
      (∀ n ∈ orbit, inRegion n lo hi = true → MapsBelow lo hi size n) →
      top + (inRegionCount lo hi orbit : Int) ≤ INT_MAX →
      ∃ g, accumulate lo hi size nPass orbit = some g ∧
        gridSum g = gridSum nPass + (inRegionCount lo hi orbit : Int)) ∧
    (∀ samples : List (Complex K),
      (∀ c ∈ samples, rejectedByFilter sqrt c = false →
        ∀ n ∈ buddhabrotPoint c bound, inRegion n lo hi = true → MapsBelow lo hi size n) →
      (passCount sqrt lo hi bound samples : Int) ≤ INT_MAX →
      ∃ g, samplePass sqrt lo hi size bound (zeroGrid size.toNat) samples = some g ∧
        gridSum g = (passCount sqrt lo hi bound samples : Int)) ∧
    (∀ (grid : List (List Int)) (orbit : List (Complex K)),
      IsSquareGrid grid winSize → CellsAtMost grid top →
      (∀ n ∈ orbit, inRegion n minimum maximum = true →
        n.r ≤ 1 - (2 : K) ^ (-51 : Int) ∧ n.i ≤ 3 / 2 - (2 : K) ^ (-51 : Int)) →
      top + (inRegionCount minimum maximum orbit : Int) ≤ INT_MAX →
      ∃ g, accumulate minimum maximum winSize grid orbit = some g ∧
        gridSum g = gridSum grid + (inRegionCount minimum maximum orbit : Int)) := by
  refine ⟨?_, ?_, ?_⟩
  · intro orbit hmap hbound
    obtain ⟨g, hg, hsum, _, _⟩ :=
      accumulate_sum lo hi size hr him hsize orbit nPass top hsq hcells hbound hmap
    exact ⟨g, hg, hsum⟩
  · intro samples hmap hbound
    have hcast : ((size.toNat : Nat) : Int) = size := Int.toNat_of_nonneg (le_of_lt hsize)
    have hsq0 : IsSquareGrid (zeroGrid size.toNat) size := by
      have h := zeroGrid_isSquareGrid size.toNat
      rwa [hcast] at h
    obtain ⟨g, hg, hsum, _, _⟩ :=
      samplePass_sum sqrt lo hi size bound hr him hsize samples (zeroGrid size.toNat) 0
        hsq0 (zeroGrid_cellsAtMost size.toNat) (by omega) hmap
    refine ⟨g, hg, ?_⟩
    rw [hsum, gridSum_zeroGrid]
    omega
  · intro grid orbit hsqg hcellsg hedge hbound
    obtain ⟨g, hg, hsum, _, _⟩ :=
      accumulate_sum (minimum : Complex K) maximum winSize
        (by simp only [minimum, maximum]; norm_num) (by simp only [minimum, maximum]; norm_num)
        (by decide) orbit grid top hsqg hcellsg hbound
        (fun n hn hin => mapsBelow_of_below_edge n hin (hedge n hn hin).1 (hedge n hn hin).2)
    exact ⟨g, hg, hsum⟩

/-- Witness of C12 (amended): the program's region, resolution `4`, the all-zero grid
and the points `(-2, 1)` (inside, mapped to row `0` and column `3`) and `(2, 2)`
(outside): the sum grows by one. -/
theorem accumulation_count_witness :
    (minimum : Complex ℝ).r < (maximum : Complex ℝ).r ∧
    (minimum : Complex ℝ).i < (maximum : Complex ℝ).i ∧
    (0 : Int) < 4 ∧
    IsSquareGrid (zeroGrid 4) 4 ∧ CellsAtMost (zeroGrid 4) 0 ∧
    (∀ n ∈ [(⟨-2, 1⟩ : Complex ℝ), ⟨2, 2⟩], inRegion n minimum maximum = true →
      MapsBelow minimum maximum 4 n) ∧
    (0 : Int) + (inRegionCount (minimum : Complex ℝ) maximum [⟨-2, 1⟩, ⟨2, 2⟩] : Int)
      ≤ INT_MAX ∧
    inRegionCount (minimum : Complex ℝ) maximum [⟨-2, 1⟩, ⟨2, 2⟩] = 1 ∧
    ∃ g, accumulate (minimum : Complex ℝ) maximum 4 (zeroGrid 4) [⟨-2, 1⟩, ⟨2, 2⟩] = some g ∧
      gridSum g = gridSum (zeroGrid 4)
        + (inRegionCount (minimum : Complex ℝ) maximum [⟨-2, 1⟩, ⟨2, 2⟩] : Int) :=
  have hr : (minimum : Complex ℝ).r < (maximum : Complex ℝ).r := by
    simp only [minimum, maximum]; norm_num
  have him : (minimum : Complex ℝ).i < (maximum : Complex ℝ).i := by
    simp only [minimum, maximum]; norm_num
  have hmap : ∀ n ∈ [(⟨-2, 1⟩ : Complex ℝ), ⟨2, 2⟩], inRegion n minimum maximum = true →
      MapsBelow minimum maximum 4 n := by
    intro n hn hin
    simp only [List.mem_cons, List.mem_singleton, List.not_mem_nil, or_false] at hn
    rcases hn with h | h
    · subst h
      exact ⟨0, 3, rowFromReal_corner_example ℝ, by decide, colFromImag_one_example ℝ,
        by decide⟩
    · subst h
      rw [inRegion_examples.2] at hin
      exact absurd hin (by decide)
  have hbound : (0 : Int)
      + (inRegionCount (minimum : Complex ℝ) maximum [⟨-2, 1⟩, ⟨2, 2⟩] : Int) ≤ INT_MAX := by
    rw [inRegionCount_examples]
    decide
  ⟨hr, him, by decide, zeroGrid_isSquareGrid 4, zeroGrid_cellsAtMost 4, hmap,
   hbound, inRegionCount_examples,
   (accumulation_count Real.sqrt minimum maximum 4 5 (zeroGrid 4) 0 hr him (by decide)
     (zeroGrid_isSquareGrid 4) (zeroGrid_cellsAtMost 4)).1
     [⟨-2, 1⟩, ⟨2, 2⟩] hmap hbound⟩

end Buddhabrot
